import Mathlib

/-!
A doubly-linked list with iterators and an in-place bubble sort.

Shallow embedding of `src/list.c` / `src/list.h`.

* The C heap of `node` structs is a `Heap`: one map per struct field
  (`prev`, `next`, `data`) from addresses to the stored word, together with
  the number of nodes handed out by `malloc` so far.  Address `0` is `NULL`.
* A `malloc`ed node keeps whatever the three maps held at its address: the
  block is not initialised, exactly as in C.
* Every `p->field` access goes through `Heap.load_*` / `Heap.store_*`, which
  fault with `Fault.invalid_pointer` when `p` is `NULL` or not an allocated
  node.  The two `exit(1)` paths of the source are the faults `empty_list`
  and `index_out_of_bounds`.
* The structs `list` and `list_iterator` are passed by value and returned:
  a function taking `list* lst` takes the heap and the struct, and returns
  the new heap and the new struct.  An iterator carries the struct of the
  list it points to in its `lst` field.
* `int` is `Int`: the values the functions compute are lengths, indices and
  their differences; overflow of `int`, which needs a list of `2^31` nodes,
  is not modelled.
* Pointers (`node*`, `void*`) are addresses of type `Nat`; the integers the
  reference comparator dereferences live in a separate read-only store
  `Nat → Int` from addresses to values.
* `malloc` is taken to succeed; `printf` output is not modelled.
-/

namespace CList

/-- The ways a call can stop without returning. -/
inductive Fault where
  /-- the `exit(1)` of `pop` and `_pop_node` on a list of length 0 -/
  | empty_list
  /-- the `exit(1)` of the index checks of `_get`, `get`, `rm`, `swap` and `iget` -/
  | index_out_of_bounds
  /-- dereference of `NULL` or of an address that is not an allocated node -/
  | invalid_pointer
  deriving DecidableEq

/-- The memory holding the `node` structs (`list.h`, lines 15-19), field by field. -/
structure Heap where
  prev : Nat → Nat
  next : Nat → Nat
  data : Nat → Nat
  /-- number of nodes allocated so far; the allocated addresses are `1 .. allocated` -/
  allocated : Nat

/-- The `list` struct (`list.h`, lines 26-30). -/
structure list where
  length : Int
  head : Nat
  tail : Nat
  deriving DecidableEq

/-- The `list_iterator` struct (`list.h`, lines 35-39); `lst` is the struct the
pointer `iter->lst` refers to. -/
structure list_iterator where
  index : Int
  lst : list
  current : Nat
  deriving DecidableEq

/-- Overwrite one entry of a field map. -/
def upd (f : Nat → Nat) (a v : Nat) : Nat → Nat :=
  fun x => if x = a then v else f x

/-- An address that may be dereferenced: non-`NULL` and allocated. -/
def Heap.valid (h : Heap) (p : Nat) : Prop := 0 < p ∧ p ≤ h.allocated

instance (h : Heap) (p : Nat) : Decidable (h.valid p) :=
  inferInstanceAs (Decidable (0 < p ∧ p ≤ h.allocated))

/-- Read `p->prev`. -/
def Heap.load_prev (h : Heap) (p : Nat) : Except Fault Nat :=
  if h.valid p then .ok (h.prev p) else .error .invalid_pointer

/-- Read `p->next`. -/
def Heap.load_next (h : Heap) (p : Nat) : Except Fault Nat :=
  if h.valid p then .ok (h.next p) else .error .invalid_pointer

/-- Read `p->data`. -/
def Heap.load_data (h : Heap) (p : Nat) : Except Fault Nat :=
  if h.valid p then .ok (h.data p) else .error .invalid_pointer

/-- Execute `p->prev = v`. -/
def Heap.store_prev (h : Heap) (p v : Nat) : Except Fault Heap :=
  if h.valid p then .ok { h with prev := upd h.prev p v } else .error .invalid_pointer

/-- Execute `p->next = v`. -/
def Heap.store_next (h : Heap) (p v : Nat) : Except Fault Heap :=
  if h.valid p then .ok { h with next := upd h.next p v } else .error .invalid_pointer

/-- Execute `p->data = v`. -/
def Heap.store_data (h : Heap) (p v : Nat) : Except Fault Heap :=
  if h.valid p then .ok { h with data := upd h.data p v } else .error .invalid_pointer

/-- The call `malloc(sizeof(node))`: the next address becomes allocated; the
contents of the block are whatever the heap held there. -/
def malloc (h : Heap) : Heap × Nat :=
  ({ h with allocated := h.allocated + 1 }, h.allocated + 1)

/-- The function `_swap` (`list.c`, lines 15-43). -/
def _swap (h : Heap) (lst : list) (n1 n2 : Nat) : Except Fault (Heap × list) := do
  let n1Prev ← h.load_prev n1
  let n1Next ← h.load_next n1
  let n2Prev ← h.load_prev n2
  let n2Next ← h.load_next n2
  let adjacent : Bool := decide (n1Next = n2)
  let lst := if lst.head = n1 then { lst with head := n2 } else lst
  let lst := if lst.tail = n2 then { lst with tail := n1 } else lst
  let h ← h.store_prev n1 (if adjacent then n2 else n2Prev)
  let h ← h.store_next n1 n2Next
  let h ← h.store_next n2 (if adjacent then n1 else n1Next)
  let h ← h.store_prev n2 n1Prev
  let h ← if n1Prev ≠ 0 then h.store_next n1Prev n2 else .ok h
  let h ← if n1Next ≠ 0 ∧ adjacent = false then h.store_prev n1Next n2 else .ok h
  let h ← if n2Next ≠ 0 then h.store_prev n2Next n1 else .ok h
  let h ← if n2Prev ≠ 0 ∧ adjacent = false then h.store_next n2Prev n1 else .ok h
  .ok (h, lst)

/-- The loop `for(i=0; i<k; i++) n = n->next;` shared by `_get`, `get` and `rm`. -/
def walk_next (h : Heap) : Nat → Nat → Except Fault Nat
  | 0, n => .ok n
  | k + 1, n => (h.load_next n).bind (walk_next h k)

/-- The function `_get` (`list.c`, lines 53-67). -/
def _get (h : Heap) (lst : list) (index : Int) : Except Fault Nat :=
  if index ≥ lst.length ∨ index < 0 then .error .index_out_of_bounds
  else walk_next h index.toNat lst.head

/-- The function `_pop_node` (`list.c`, lines 77-89); returns the popped node. -/
def _pop_node (h : Heap) (lst : list) : Except Fault (Heap × list × Nat) :=
  if lst.length = 0 then .error .empty_list
  else do
    let popped := lst.head
    let nx ← h.load_next popped
    let lst := { lst with head := nx }
    let h ← h.store_prev lst.head 0
    let lst := { lst with length := lst.length - 1 }
    .ok (h, lst, popped)

/-- The function `_append_node` (`list.c`, lines 98-114). -/
def _append_node (h : Heap) (lst : list) (n : Nat) : Except Fault (Heap × list) :=
  if lst.length = 0 then
    .ok (h, { lst with head := n, tail := n, length := lst.length + 1 })
  else do
    let oldTail := lst.tail
    let h ← h.store_next oldTail n
    let h ← h.store_next n 0
    let h ← h.store_prev n oldTail
    .ok (h, { lst with tail := n, length := lst.length + 1 })

/-- The function `pop` (`list.c`, lines 117-129); returns the popped data. -/
def pop (h : Heap) (lst : list) : Except Fault (Heap × list × Nat) :=
  if lst.length = 0 then .error .empty_list
  else do
    let popped := lst.head
    let nx ← h.load_next popped
    let lst := { lst with head := nx }
    let h ← h.store_prev lst.head 0
    let lst := { lst with length := lst.length - 1 }
    let d ← h.load_data popped
    .ok (h, lst, d)

/-- The function `get` (`list.c`, lines 131-145). -/
def get (h : Heap) (lst : list) (index : Int) : Except Fault Nat :=
  if index ≥ lst.length ∨ index < 0 then .error .index_out_of_bounds
  else do
    let n ← walk_next h index.toNat lst.head
    h.load_data n

/-- The function `rm` (`list.c`, lines 147-174); returns the removed data. -/
def rm (h : Heap) (lst : list) (index : Int) : Except Fault (Heap × list × Nat) :=
  if lst.length ≤ index then .error .index_out_of_bounds
  else if index = 0 then pop h lst
  else do
    let n ← walk_next h (index - 1).toNat lst.head
    let r ← h.load_next n
    let rNext ← h.load_next r
    let h ← h.store_next n rNext
    let rNext ← h.load_next r
    let h ← h.store_prev rNext n
    let lst := if index = lst.length - 1 then { lst with tail := n } else lst
    let lst := { lst with length := lst.length - 1 }
    let d ← h.load_data r
    .ok (h, lst, d)

/-- The function `cycle` (`list.c`, lines 176-180). -/
def cycle (h : Heap) (lst : list) : Except Fault (Heap × list) :=
  if lst.length > 1 then do
    let (h, lst, n) ← _pop_node h lst
    _append_node h lst n
  else .ok (h, lst)

/-- The function `append` (`list.c`, lines 183-202). -/
def append (h : Heap) (lst : list) (data : Nat) : Except Fault (Heap × list) := do
  let (h, newNode) := malloc h
  let h ← h.store_data newNode data
  if lst.length = 0 then
    .ok (h, { lst with head := newNode, tail := newNode, length := lst.length + 1 })
  else do
    let oldTail := lst.tail
    let h ← h.store_next oldTail newNode
    let h ← h.store_next newNode 0
    let h ← h.store_prev newNode oldTail
    .ok (h, { lst with tail := newNode, length := lst.length + 1 })

/-- The function `swap` (`list.c`, lines 218-231). -/
def swap (h : Heap) (lst : list) (index1 index2 : Int) : Except Fault (Heap × list) :=
  if index1 < 0 ∨ index1 ≥ lst.length ∨ index2 < 0 ∨ index2 ≥ lst.length then
    .error .index_out_of_bounds
  else do
    let n1 ← _get h lst index1
    let n2 ← _get h lst index2
    if index1 < index2 then _swap h lst n1 n2 else _swap h lst n2 n1

/-- The function `get_iterator` (`list.c`, lines 237-243). -/
def get_iterator (lst : list) : list_iterator :=
  { current := lst.head, lst := lst, index := 0 }

/-- The function `next` (`list.c`, lines 245-252); returns the iterator and the
returned index. -/
def next (h : Heap) (iter : list_iterator) : Except Fault (list_iterator × Int) := do
  let nx ← h.load_next iter.current
  if nx = 0 then .ok (iter, iter.index)
  else .ok ({ iter with current := nx, index := iter.index + 1 }, iter.index + 1)

/-- The function `prev` (`list.c`, lines 255-262). -/
def prev (h : Heap) (iter : list_iterator) : Except Fault (list_iterator × Int) := do
  let pv ← h.load_prev iter.current
  if pv = 0 then .ok (iter, iter.index)
  else .ok ({ iter with current := pv, index := iter.index - 1 }, iter.index - 1)

/-- The function `data` (`list.c`, lines 265-267). -/
def data (h : Heap) (iter : list_iterator) : Except Fault Nat :=
  h.load_data iter.current

/-- Lines 276-298 of `iget`: the iterator after the two "small optimization"
resets, the direction to move in and the number of steps to take. -/
def iget_plan (iter : list_iterator) (index : Int) : list_iterator × Bool × Int :=
  let forward : Bool := decide (index > iter.index)
  let diff : Int := if forward then index - iter.index else iter.index - index
  let s : list_iterator × Bool × Int :=
    if forward = false ∧ index < diff then
      ({ iter with current := iter.lst.head, index := 0 }, !forward, index)
    else (iter, forward, diff)
  if s.2.1 = true ∧ s.1.lst.length - index - 1 < s.2.2 then
    ({ s.1 with current := s.1.lst.tail, index := s.1.lst.length - 1 }, !s.2.1,
      s.1.lst.length - index - 1)
  else s

/-- The loop `for(i=0; i < diff; i++) action(iter);` of `iget` (lines 303-309),
with `action` being `next` when `forward` is set and `prev` otherwise. -/
def iget_steps (h : Heap) (forward : Bool) : Nat → list_iterator → Except Fault list_iterator
  | 0, iter => .ok iter
  | k + 1, iter =>
    ((if forward then next h iter else prev h iter).map Prod.fst).bind (iget_steps h forward k)

/-- The function `iget` (`list.c`, lines 269-312); returns the moved iterator
and the data found. -/
def iget (h : Heap) (iter : list_iterator) (index : Int) :
    Except Fault (list_iterator × Nat) :=
  if index ≥ iter.lst.length ∨ index < 0 then .error .index_out_of_bounds
  else do
    let s := iget_plan iter index
    let iter ← iget_steps h s.2.1 s.2.2.toNat s.1
    let d ← data h iter
    .ok (iter, d)

/-- The function `irm` (`list.c`, lines 314-318). -/
def irm (h : Heap) (iter : list_iterator) (index : Int) :
    Except Fault (Heap × list_iterator) := do
  let (h, lst, _) ← rm h iter.lst index
  .ok (h, { iter with lst := lst })

/-- The function `iappend` (`list.c`, lines 320-325). -/
def iappend (h : Heap) (iter : list_iterator) (d : Nat) :
    Except Fault (Heap × list_iterator) := do
  let (h, lst) ← append h iter.lst d
  let iter := { iter with lst := lst }
  if iter.lst.length = 1 then .ok (h, { iter with current := iter.lst.head })
  else .ok (h, iter)

/-- The function `cmp_int` (`list.c`, lines 351-361); `mem` is the store the
two `int*` are read from. -/
def cmp_int (mem : Nat → Int) (vint1 vint2 : Nat) : Int :=
  if mem vint1 < mem vint2 then 0
  else if mem vint1 > mem vint2 then 1
  else 2

/-- The function `extract_int` (`list.c`, lines 369-372). -/
def extract_int (d : Nat) : Nat := d

/-- The body of the inner loop of `bubble_sort` (`list.c`, lines 381-388) for
one value of `j`. -/
def bubble_step (cmp_func : Nat → Nat → Int) (data_func : Nat → Nat) (j : Int)
    (s : Heap × list_iterator) : Except Fault (Heap × list_iterator) := do
  let (iter, _) ← iget s.1 s.2 j
  let h := s.1
  let d1 ← h.load_data iter.current
  let p1 := data_func d1
  let nx ← h.load_next iter.current
  let d2 ← h.load_data nx
  let p2 := data_func d2
  if cmp_func p1 p2 ≠ 0 then do
    let nx ← h.load_next iter.current
    let (h, lst) ← _swap h iter.lst iter.current nx
    .ok (h, { iter with lst := lst, index := iter.index + 1 })
  else .ok (h, iter)

/-- A loop `for(j = from; j < from + count; j++) body(j)`. -/
def for_loop {σ : Type} (body : Int → σ → Except Fault σ) : Nat → Int → σ → Except Fault σ
  | 0, _, s => .ok s
  | k + 1, j, s => (body j s).bind (for_loop body k (j + 1))

/-- The function `bubble_sort` (`list.c`, lines 374-393).  Both loops run while
the counter is below `iter->lst->length - 1`; no statement of the body writes
`length`, so each loop runs that many times. -/
def bubble_sort (h : Heap) (iter : list_iterator) (cmp_func : Nat → Nat → Int)
    (data_func : Nat → Nat) : Except Fault (Heap × list_iterator) := do
  let index := iter.index
  let n := (iter.lst.length - 1).toNat
  let s ← for_loop (fun _ s => for_loop (bubble_step cmp_func data_func) n 0 s) n 0 (h, iter)
  let (iter, _) ← iget s.1 s.2 index
  .ok (s.1, iter)

/-! ## The abstract view of a list: node sequences, invariants, test data -/

/-- The node at position `k` of a sequence of nodes, `NULL` outside of it. -/
def nth (ps : List Nat) (k : Int) : Nat := if k < 0 then 0 else ps.getD k.toNat 0

/-- The first `n` addresses met when following the links `f` from `p`. -/
def follow (f : Nat → Nat) : Nat → Nat → List Nat
  | 0, _ => []
  | n + 1, p => p :: follow f n (f p)

/-- The nodes of a list: the `length` nodes met from `head` along `next` links. -/
def nodes (h : Heap) (lst : list) : List Nat := follow h.next lst.length.toNat lst.head

/-- The nodes met from `tail` along `prev` links, as many as `length`. -/
def nodes_back (h : Heap) (lst : list) : List Nat := follow h.prev lst.length.toNat lst.tail

/-- The list invariants: `length` is not negative; an empty list has neither
head nor tail; every node is allocated; `head` has no previous node and `tail`
no next node; following `next` from `head` ends at `tail` after `length` nodes
and following `prev` from `tail` visits the same nodes in reverse. -/
def well_formed (h : Heap) (lst : list) : Prop :=
  0 ≤ lst.length ∧
  (lst.length = 0 → lst.head = 0 ∧ lst.tail = 0) ∧
  (∀ p ∈ nodes h lst, h.valid p) ∧
  (0 < lst.length →
    h.prev lst.head = 0 ∧ h.next lst.tail = 0 ∧
    (nodes h lst).getLast? = some lst.tail ∧
    nodes_back h lst = (nodes h lst).reverse)

instance (h : Heap) (lst : list) : Decidable (well_formed h lst) := by
  unfold well_formed; infer_instance

/-- The sequence `ps` of distinct allocated nodes is linked forwards and is what
the struct `lst` describes; nothing is said about `prev` fields or about the
`next` field of the last node. -/
structure Fwd (h : Heap) (lst : list) (ps : List Nat) : Prop where
  len : lst.length = ps.length
  head : 0 < ps.length → lst.head = nth ps 0
  tail : 0 < ps.length → lst.tail = nth ps ((ps.length : Int) - 1)
  valid : ∀ p ∈ ps, h.valid p
  nodup : ps.Nodup
  next : ∀ k : Int, 0 ≤ k → k + 1 < ps.length → h.next (nth ps k) = nth ps (k + 1)

/-- The sequence `ps` of distinct allocated nodes is doubly linked, closed by
`NULL` at both ends, and is what the struct `lst` describes. -/
structure Rep (h : Heap) (lst : list) (ps : List Nat) : Prop where
  len : lst.length = ps.length
  head : lst.head = nth ps 0
  tail : lst.tail = nth ps ((ps.length : Int) - 1)
  valid : ∀ p ∈ ps, h.valid p
  nodup : ps.Nodup
  next : ∀ k : Int, 0 ≤ k → k < ps.length → h.next (nth ps k) = nth ps (k + 1)
  prev : ∀ k : Int, 0 ≤ k → k < ps.length → h.prev (nth ps k) = nth ps (k - 1)

/-- The data held by the list, from head to tail. -/
def elements (h : Heap) (lst : list) : List Nat := (nodes h lst).map h.data

/-- The iterator's cached index is a position of the list and its current
node is the node at that position. -/
def consistent (h : Heap) (iter : list_iterator) : Prop :=
  0 ≤ iter.index ∧ iter.index < iter.lst.length ∧
    iter.current = nth (nodes h iter.lst) iter.index

instance (h : Heap) (iter : list_iterator) : Decidable (consistent h iter) := by
  unfold consistent; infer_instance

/-- The iterator over `lst` standing at position `k` of the node sequence `ps`. -/
def iter_at (lst : list) (ps : List Nat) (k : Int) : list_iterator :=
  { index := k, lst := lst, current := nth ps k }

/-- A sequence of `append` calls, one per item of `ds`, in order. -/
def appends (h : Heap) (lst : list) : List Nat → Except Fault (Heap × list)
  | [] => .ok (h, lst)
  | d :: ds => (append h lst d).bind (fun s => appends s.1 s.2 ds)

/-- Repeated calls of `cycle`. -/
def cycle_times : Nat → Heap × list → Except Fault (Heap × list)
  | 0, s => .ok s
  | m + 1, s => (cycle s.1 s.2).bind (cycle_times m)

/-- The heap `h2` differs from `h` at most in the `prev` and `next` fields of the
nodes in `ps`. -/
def Frame (ps : List Nat) (h h2 : Heap) : Prop :=
  h2.data = h.data ∧ h2.allocated = h.allocated ∧
    ∀ x, x ∉ ps → h2.prev x = h.prev x ∧ h2.next x = h.next x

/-- Overwrite one entry of a field map when the guard holds. -/
def upd_if (c : Bool) (f : Nat → Nat) (a v : Nat) : Nat → Nat := if c then upd f a v else f

/-- The heap `_swap` leaves behind when none of its accesses faults. -/
def swap_heap (h : Heap) (n1 n2 : Nat) : Heap :=
  let n1Prev := h.prev n1
  let n1Next := h.next n1
  let n2Prev := h.prev n2
  let n2Next := h.next n2
  let adjacent : Bool := decide (n1Next = n2)
  { h with
    prev := upd_if (decide (n2Next ≠ 0))
              (upd_if (decide (n1Next ≠ 0) && !adjacent)
                (upd (upd h.prev n1 (if adjacent then n2 else n2Prev)) n2 n1Prev) n1Next n2)
              n2Next n1
    next := upd_if (decide (n2Prev ≠ 0) && !adjacent)
              (upd_if (decide (n1Prev ≠ 0))
                (upd (upd h.next n1 n2Next) n2 (if adjacent then n1 else n1Next)) n1Prev n2)
              n2Prev n1 }

/-- The list struct `_swap` leaves behind. -/
def swap_list (lst : list) (n1 n2 : Nat) : list :=
  let lst := if lst.head = n1 then { lst with head := n2 } else lst
  if lst.tail = n2 then { lst with tail := n1 } else lst

/-- The sequence `ps` with the entries at positions `i` and `j` exchanged. -/
def exchange (ps : List Nat) (i j : Int) : List Nat :=
  (ps.set i.toNat (nth ps j)).set j.toNat (nth ps i)

/-- A heap with the five allocated nodes `1`, ..., `5`, linked in this order and
holding the data `10`, ..., `50`. -/
def demo_heap : Heap where
  prev := fun p => p - 1
  next := fun p => if p < 5 then p + 1 else 0
  data := fun p => 10 * p
  allocated := 5

/-- The list made of the five nodes of `demo_heap`. -/
def demo_list : list := { length := 5, head := 1, tail := 5 }

/-- An iterator over `demo_list` standing on its fourth node. -/
def demo_iter : list_iterator := { index := 3, lst := demo_list, current := 4 }

/-- A heap without any allocated node whose free memory is zero-filled. -/
def zero_heap : Heap where
  prev := fun _ => 0
  next := fun _ => 0
  data := fun _ => 0
  allocated := 0

/-- A store of `int` objects in which the object at address `a` has the value `a`. -/
def int_store : Nat → Int := fun a => a

/-- A heap without any allocated node whose free memory is not zeroed. -/
def junk_heap : Heap where
  prev := fun _ => 7
  next := fun _ => 9
  data := fun _ => 0
  allocated := 0

/-- A list struct of length 0. -/
def empty_list : list := { length := 0, head := 0, tail := 0 }

/-- What one inner step of `bubble_sort` at position `j` does to the node
sequence: the nodes at `j` and `j + 1` are exchanged when the comparator's
result on their keys is not `0`. -/
def bstep (cmp_func : Nat → Nat → Int) (key : Nat → Nat) (j : Int) (ps : List Nat) : List Nat :=
  if cmp_func (key (nth ps j)) (key (nth ps (j + 1))) ≠ 0 then exchange ps j (j + 1) else ps

/-- The inner steps at positions `j`, `j + 1`, ..., as many as the first argument. -/
def bpass (cmp_func : Nat → Nat → Int) (key : Nat → Nat) : Nat → Int → List Nat → List Nat
  | 0, _, ps => ps
  | m + 1, j, ps => bpass cmp_func key m (j + 1) (bstep cmp_func key j ps)

/-- Several passes, each of `n` inner steps from position `0`. -/
def bpasses (cmp_func : Nat → Nat → Int) (key : Nat → Nat) (n : Nat) : Nat → List Nat → List Nat
  | 0, ps => ps
  | t + 1, ps => bpasses cmp_func key n t (bpass cmp_func key n 0 ps)

/-- The invariant of one pass of the inner loop, about to compare positions `j`
and `j + 1`, over a sequence whose positions from `s` on already hold values
not below any value before them: the same is true of position `j` and of the
positions from `s - 1` up to `j`. -/
def PassInv (val : Nat → Int) (s j : Int) (ps : List Nat) : Prop :=
  ∀ a b : Int, 0 ≤ a → a ≤ b → b < ps.length → (s ≤ b ∨ b = j ∨ (s - 1 ≤ b ∧ b ≤ j)) →
    val (nth ps a) ≤ val (nth ps b)

/-- Every position from `s` on holds a value not below any value before it. -/
def SortedFrom (val : Nat → Int) (s : Int) (ps : List Nat) : Prop :=
  ∀ a b : Int, 0 ≤ a → a ≤ b → b < ps.length → s ≤ b → val (nth ps a) ≤ val (nth ps b)

/-- The two nested loops of `bubble_sort` (`list.c`, lines 379-390), without the
final call of `iget`. -/
def bubble_loops (h : Heap) (iter : list_iterator) (cmp_func : Nat → Nat → Int)
    (data_func : Nat → Nat) : Except Fault (Heap × list_iterator) :=
  for_loop
    (fun _ s => for_loop (bubble_step cmp_func data_func) (iter.lst.length - 1).toNat 0 s)
    (iter.lst.length - 1).toNat 0 (h, iter)

/-- What an inner step of `bubble_sort` finds after its call of `iget`: the loop
counter `j`, the iterator's index and current node, and the pointer
`iter->current->next` whose `data` the step reads next. -/
structure Probe where
  j : Int
  index : Int
  current : Nat
  next : Nat
  deriving DecidableEq

/-- The observation of an inner step at counter `j` from the state `s`. -/
def bubble_probe (j : Int) (s : Heap × list_iterator) : Except Fault Probe := do
  let (iter, _) ← iget s.1 s.2 j
  let nx ← s.1.load_next iter.current
  .ok { j := j, index := iter.index, current := iter.current, next := nx }

/-- The body of the inner loop, keeping a log of the observations. -/
def bubble_step_logged (cmp_func : Nat → Nat → Int) (data_func : Nat → Nat) (j : Int)
    (s : (Heap × list_iterator) × List Probe) :
    Except Fault ((Heap × list_iterator) × List Probe) := do
  let p ← bubble_probe j s.1
  let s2 ← bubble_step cmp_func data_func j s.1
  .ok (s2, s.2 ++ [p])

/-- The two nested loops of `bubble_sort`, keeping a log with one entry for each
inner step executed. -/
def bubble_loops_logged (h : Heap) (iter : list_iterator) (cmp_func : Nat → Nat → Int)
    (data_func : Nat → Nat) : Except Fault ((Heap × list_iterator) × List Probe) :=
  for_loop
    (fun _ s => for_loop (bubble_step_logged cmp_func data_func)
      (iter.lst.length - 1).toNat 0 s)
    (iter.lst.length - 1).toNat 0 ((h, iter), [])

/-- An observation made inside the node sequence `ps`: the counter is at most
the last but one position, the seek has landed on it, and both the current node
and the node read through `iter->current->next` are nodes of the sequence. -/
def Probe.inside (ps : List Nat) (p : Probe) : Prop :=
  0 ≤ p.j ∧ p.j + 2 ≤ ps.length ∧ p.index = p.j ∧ p.current ∈ ps ∧ p.next ∈ ps

/-- The loop of `iget` (`list.c`, lines 303-309) with a counter of the calls of
`action` it makes. -/
def iget_steps_counted (h : Heap) (forward : Bool) :
    Nat → list_iterator × Nat → Except Fault (list_iterator × Nat)
  | 0, s => .ok s
  | k + 1, s =>
    ((if forward then next h s.1 else prev h s.1).map (fun r => (r.1, s.2 + 1))).bind
      (iget_steps_counted h forward k)

/-- The function `iget` returning, next to the moved iterator and the data, the
number of single `next`/`prev` steps it has made. -/
def iget_counted (h : Heap) (iter : list_iterator) (index : Int) :
    Except Fault ((list_iterator × Nat) × Nat) :=
  if index ≥ iter.lst.length ∨ index < 0 then .error .index_out_of_bounds
  else do
    let s := iget_plan iter index
    let r ← iget_steps_counted h s.2.1 s.2.2.toNat (s.1, 0)
    let d ← data h r.1
    .ok ((r.1, d), r.2)

/-- The position of the node `rm` unlinks when it gets past its guards with the
index `index`: `index` itself when it is positive, `1` when it is negative. -/
def rm_position (index : Int) : Int := ((index - 1).toNat : Int) + 1

/-! ## Lemmas -/

theorem nth_nil (k : Int) : nth [] k = 0 := by
  unfold nth; split <;> simp

theorem nth_cons (p : Nat) (ps : List Nat) (k : Int) :
    nth (p :: ps) k = if k = 0 then p else nth ps (k - 1) := by
  unfold nth
  by_cases h0 : k < 0
  · have : k ≠ 0 := by omega
    have h1 : k - 1 < 0 := by omega
    simp [h0, this, h1]
  · by_cases h1 : k = 0
    · subst h1; simp
    · have h2 : ¬ (k - 1 < 0) := by omega
      obtain ⟨m, rfl⟩ : ∃ m : Nat, k = (m : Int) + 1 := ⟨(k - 1).toNat, by omega⟩
      have h3 : ((m : Int) + 1).toNat = m + 1 := by omega
      have h4 : ¬ ((m : Int) < 0) := by omega
      simp [h0, h1, h3, h4]

theorem nth_of_neg (ps : List Nat) {k : Int} (hk : k < 0) : nth ps k = 0 := by
  simp [nth, hk]

theorem nth_of_ge (ps : List Nat) {k : Int} (hk : (ps.length : Int) ≤ k) : nth ps k = 0 := by
  induction ps generalizing k with
  | nil => exact nth_nil k
  | cons p ps ih =>
    rw [nth_cons]
    simp only [List.length_cons, Nat.cast_add, Nat.cast_one] at hk
    have : k ≠ 0 := by omega
    rw [if_neg this]
    exact ih (by omega)

theorem nth_mem (ps : List Nat) {k : Int} (h0 : 0 ≤ k) (h1 : k < ps.length) : nth ps k ∈ ps := by
  induction ps generalizing k with
  | nil => simp at h1; omega
  | cons p ps ih =>
    rw [nth_cons]
    simp only [List.length_cons, Nat.cast_add, Nat.cast_one] at h1
    by_cases hk : k = 0
    · simp [hk]
    · rw [if_neg hk]
      exact List.mem_cons_of_mem _ (ih (by omega) (by omega))

theorem mem_iff_nth (ps : List Nat) (p : Nat) :
    p ∈ ps ↔ ∃ k : Int, 0 ≤ k ∧ k < ps.length ∧ nth ps k = p := by
  constructor
  · intro hp
    induction ps with
    | nil => simp at hp
    | cons q ps ih =>
      rcases List.mem_cons.mp hp with rfl | hp
      · exact ⟨0, le_refl _, by simp, by simp [nth_cons]⟩
      · obtain ⟨k, h0, h1, h2⟩ := ih hp
        have hk1 : k + 1 ≠ 0 := by omega
        refine ⟨k + 1, by omega,
          by simp only [List.length_cons, Nat.cast_add, Nat.cast_one]; omega, ?_⟩
        rw [nth_cons, if_neg hk1]
        simpa using h2
  · rintro ⟨k, h0, h1, rfl⟩
    exact nth_mem ps h0 h1

theorem nth_inj {ps : List Nat} (hnd : ps.Nodup) {a b : Int} (ha0 : 0 ≤ a) (ha : a < ps.length)
    (hb0 : 0 ≤ b) (hb : b < ps.length) (hab : nth ps a = nth ps b) : a = b := by
  induction ps generalizing a b with
  | nil => simp at ha; omega
  | cons p ps ih =>
    simp only [List.length_cons, Nat.cast_add, Nat.cast_one] at ha hb
    rw [List.nodup_cons] at hnd
    rw [nth_cons, nth_cons] at hab
    by_cases ha1 : a = 0 <;> by_cases hb1 : b = 0
    · omega
    · rw [if_pos ha1, if_neg hb1] at hab
      exact absurd (hab ▸ nth_mem ps (by omega) (by omega)) hnd.1
    · rw [if_neg ha1, if_pos hb1] at hab
      exact absurd (hab ▸ nth_mem ps (by omega) (by omega)) hnd.1
    · rw [if_neg ha1, if_neg hb1] at hab
      have := ih hnd.2 (a := a - 1) (b := b - 1) (by omega) (by omega) (by omega) (by omega) hab
      omega

theorem nth_ext {ps qs : List Nat} (hl : ps.length = qs.length)
    (hk : ∀ k : Int, 0 ≤ k → k < ps.length → nth ps k = nth qs k) : ps = qs := by
  induction ps generalizing qs with
  | nil => cases qs with
    | nil => rfl
    | cons q qs => simp at hl
  | cons p ps ih =>
    cases qs with
    | nil => simp at hl
    | cons q qs =>
      simp only [List.length_cons, Nat.cast_add, Nat.cast_one, add_left_inj] at hl hk
      have h0 := hk 0 (le_refl _) (by omega)
      simp only [nth_cons, if_true] at h0
      subst h0
      congr 1
      apply ih hl
      intro k k0 k1
      have := hk (k + 1) (by omega) (by omega)
      have hk1 : k + 1 ≠ 0 := by omega
      simpa only [nth_cons, if_neg hk1, add_sub_cancel_right] using this

theorem nodup_of_nth_inj {ps : List Nat}
    (hinj : ∀ a b : Int, 0 ≤ a → a < b → b < ps.length → nth ps a ≠ nth ps b) : ps.Nodup := by
  induction ps with
  | nil => exact List.nodup_nil
  | cons p ps ih =>
    rw [List.nodup_cons]
    constructor
    · intro hp
      obtain ⟨k, h0, h1, h2⟩ := (mem_iff_nth ps p).mp hp
      have := hinj 0 (k + 1) (le_refl _) (by omega)
        (by simp only [List.length_cons, Nat.cast_add, Nat.cast_one]; omega)
      have hk1 : k + 1 ≠ 0 := by omega
      simp only [nth_cons, if_true, if_neg hk1, add_sub_cancel_right] at this
      exact this h2.symm
    · apply ih
      intro a b a0 ab bl
      have := hinj (a + 1) (b + 1) (by omega) (by omega)
        (by simp only [List.length_cons, Nat.cast_add, Nat.cast_one]; omega)
      have ha1 : a + 1 ≠ 0 := by omega
      have hb1 : b + 1 ≠ 0 := by omega
      simpa only [nth_cons, if_neg ha1, if_neg hb1, add_sub_cancel_right] using this

theorem nth_ne_zero {h : Heap} {ps : List Nat} (hv : ∀ p ∈ ps, h.valid p) {k : Int}
    (h0 : 0 ≤ k) (h1 : k < ps.length) : nth ps k ≠ 0 := by
  exact Nat.pos_iff_ne_zero.mp (hv _ (nth_mem ps h0 h1)).1

theorem nth_valid {h : Heap} {ps : List Nat} (hv : ∀ p ∈ ps, h.valid p) {k : Int}
    (h0 : 0 ≤ k) (h1 : k < ps.length) : h.valid (nth ps k) :=
  hv _ (nth_mem ps h0 h1)

theorem nth_reverse (ps : List Nat) {k : Int} (h0 : 0 ≤ k) (h1 : k < ps.length) :
    nth ps.reverse k = nth ps ((ps.length : Int) - 1 - k) := by
  obtain ⟨m, rfl⟩ : ∃ m : Nat, k = (m : Int) := ⟨k.toNat, by omega⟩
  have hm : m < ps.length := by omega
  have e : ((ps.length : Int) - 1 - (m : Int)).toNat = ps.length - 1 - m := by omega
  have hn1 : ¬ ((m : Int) < 0) := by omega
  have hn2 : ¬ ((ps.length : Int) - 1 - (m : Int) < 0) := by omega
  simp only [nth, hn1, hn2, if_false, e, Int.toNat_ofNat, List.getD_eq_getElem?_getD]
  rw [List.getElem?_reverse hm]

theorem length_follow (f : Nat → Nat) (n : Nat) (p : Nat) : (follow f n p).length = n := by
  induction n generalizing p with
  | zero => rfl
  | succ n ih => simp [follow, ih]

theorem nth_follow_zero (f : Nat → Nat) {n : Nat} (p : Nat) (hn : 0 < n) :
    nth (follow f n p) 0 = p := by
  cases n with
  | zero => omega
  | succ n => simp [follow, nth_cons]

theorem nth_follow_succ (f : Nat → Nat) {n : Nat} (p : Nat) {k : Int} (h0 : 0 ≤ k)
    (h1 : k + 1 < n) : nth (follow f n p) (k + 1) = f (nth (follow f n p) k) := by
  induction n generalizing p k with
  | zero => simp at h1; omega
  | succ n ih =>
    have hk1 : k + 1 ≠ 0 := by omega
    simp only [follow, nth_cons, if_neg hk1, add_sub_cancel_right]
    by_cases hk : k = 0
    · subst hk
      simp only [if_true]
      exact nth_follow_zero f _ (by push_cast at h1; omega)
    · rw [if_neg hk]
      have := ih (f p) (k := k - 1) (by omega) (by push_cast at h1; omega)
      simpa using this

theorem follow_eq_of (f : Nat → Nat) {n : Nat} {p : Nat} {ps : List Nat} (hl : ps.length = n)
    (hp : 0 < n → nth ps 0 = p)
    (hs : ∀ k : Int, 0 ≤ k → k + 1 < n → f (nth ps k) = nth ps (k + 1)) :
    follow f n p = ps := by
  apply nth_ext (by rw [length_follow, hl])
  rw [length_follow]
  intro k
  induction k using Int.induction_on with
  | hz => intro _ h1; rw [nth_follow_zero f p (by omega), hp (by omega)]
  | hp i ih =>
    intro _ h1
    rw [nth_follow_succ f p (by omega) h1, ih (by omega) (by omega), hs _ (by omega) h1]
  | hn i _ => intro h0 _; omega

theorem getLast?_eq_nth (ps : List Nat) (hn : 0 < ps.length) :
    ps.getLast? = some (nth ps ((ps.length : Int) - 1)) := by
  have e : ((ps.length : Int) - 1).toNat = ps.length - 1 := by omega
  have hn1 : ¬ ((ps.length : Int) - 1 < 0) := by omega
  have hl : ps.length - 1 < ps.length := by omega
  simp only [nth, hn1, if_false, e, List.getLast?_eq_getElem?, List.getD_eq_getElem?_getD,
    List.getElem?_eq_getElem hl, Option.getD_some]

theorem Rep.nodes_eq {h : Heap} {lst : list} {ps : List Nat} (r : Rep h lst ps) :
    nodes h lst = ps := by
  unfold nodes
  apply follow_eq_of
  · have := r.len; omega
  · intro _; exact r.head.symm
  · intro k h0 h1
    exact r.next k h0 (by have := r.len; omega)

theorem Rep.to_wf {h : Heap} {lst : list} {ps : List Nat} (r : Rep h lst ps) :
    well_formed h lst := by
  have hn := r.nodes_eq
  have hlen := r.len
  refine ⟨by omega, ?_, by rw [hn]; exact r.valid, ?_⟩
  · intro h0
    have : ps = [] := List.length_eq_zero.mp (by omega)
    subst this
    exact ⟨by rw [r.head, nth_nil], by rw [r.tail, nth_nil]⟩
  · intro hpos
    have hp : 0 < ps.length := by omega
    refine ⟨?_, ?_, ?_, ?_⟩
    · rw [r.head, r.prev 0 (le_refl _) (by omega)]
      exact nth_of_neg ps (by omega)
    · rw [r.tail, r.next _ (by omega) (by omega)]
      exact nth_of_ge ps (by omega)
    · rw [hn, r.tail]
      exact getLast?_eq_nth ps hp
    · rw [hn]
      unfold nodes_back
      apply follow_eq_of
      · rw [List.length_reverse]; omega
      · intro _
        rw [nth_reverse ps (le_refl _) (by omega), r.tail]
        congr 1; omega
      · intro k h0 h1
        have h1 : k + 1 < ps.length := by omega
        rw [nth_reverse ps h0 (by omega), nth_reverse ps (by omega) h1,
          r.prev _ (by omega) (by omega)]
        congr 1
        omega

theorem rep_of_wf {h : Heap} {lst : list} (w : well_formed h lst) :
    Rep h lst (nodes h lst) := by
  obtain ⟨hnn, hz, hv, hpos⟩ := w
  have hlen : ((nodes h lst).length : Int) = lst.length := by
    unfold nodes; rw [length_follow]; omega
  have hhead : lst.head = nth (nodes h lst) 0 := by
    by_cases h0 : lst.length = 0
    · rw [(hz h0).1, nth_of_ge _ (by omega)]
    · unfold nodes
      rw [nth_follow_zero _ _ (by omega)]
  have htail : lst.tail = nth (nodes h lst) (((nodes h lst).length : Int) - 1) := by
    by_cases h0 : lst.length = 0
    · rw [(hz h0).2, nth_of_neg _ (by omega)]
    · have h3 := (hpos (by omega)).2.2.1
      rw [getLast?_eq_nth _ (by omega)] at h3
      exact (Option.some.inj h3).symm
  have hnext : ∀ k : Int, 0 ≤ k → k < (nodes h lst).length →
      h.next (nth (nodes h lst) k) = nth (nodes h lst) (k + 1) := by
    intro k k0 k1
    by_cases hk : k + 1 < (nodes h lst).length
    · unfold nodes
      rw [nth_follow_succ _ _ k0 (by unfold nodes at hk; rw [length_follow] at hk; exact hk)]
    · have hk2 : k = ((nodes h lst).length : Int) - 1 := by omega
      rw [hk2, ← htail, (hpos (by omega)).2.1, nth_of_ge _ (by omega)]
  have hprev : ∀ k : Int, 0 ≤ k → k < (nodes h lst).length →
      h.prev (nth (nodes h lst) k) = nth (nodes h lst) (k - 1) := by
    intro k k0 k1
    by_cases hk : k = 0
    · rw [hk, ← hhead, (hpos (by omega)).1, nth_of_neg _ (by omega)]
    · have hb := (hpos (by omega)).2.2.2
      have e1 : nth (nodes h lst) k
          = nth (nodes_back h lst) (((nodes h lst).length : Int) - 1 - k) := by
        rw [hb, nth_reverse _ (by omega) (by omega)]
        congr 1; omega
      have e2 : nth (nodes h lst) (k - 1)
          = nth (nodes_back h lst) (((nodes h lst).length : Int) - 1 - k + 1) := by
        rw [hb, nth_reverse _ (by omega) (by omega)]
        congr 1; omega
      rw [e1, e2]
      unfold nodes_back
      rw [nth_follow_succ _ _ (by omega) (by omega)]
  refine ⟨hlen.symm, hhead, htail, hv, ?_, hnext, hprev⟩
  apply nodup_of_nth_inj
  intro a b a0 ab bl heq
  have key : ∀ d : Nat, b + d < (nodes h lst).length →
      nth (nodes h lst) (a + d) = nth (nodes h lst) (b + d) := by
    intro d
    induction d with
    | zero => intro _; simpa using heq
    | succ d ih =>
      intro hd
      have h1 := ih (by push_cast at hd; omega)
      have h2 := hnext (a + d) (by omega) (by push_cast at hd; omega)
      have h3 := hnext (b + d) (by omega) (by push_cast at hd; omega)
      push_cast
      rw [← add_assoc, ← add_assoc, ← h2, ← h3, h1]
  obtain ⟨d, hd⟩ : ∃ d : Nat, (d : Int) = (nodes h lst).length - 1 - b :=
    ⟨((nodes h lst).length - 1 - b : Int).toNat, by omega⟩
  have h1 := key d (by omega)
  have h2 := hnext (a + d) (by omega) (by omega)
  have h3 := hnext (b + d) (by omega) (by omega)
  rw [h1, h3, nth_of_ge _ (by omega)] at h2
  exact nth_ne_zero hv (by omega) (by omega) h2.symm

theorem well_formed_iff (h : Heap) (lst : list) :
    well_formed h lst ↔ ∃ ps, Rep h lst ps :=
  ⟨fun w => ⟨_, rep_of_wf w⟩, fun ⟨_, r⟩ => r.to_wf⟩

theorem Rep.fwd {h : Heap} {lst : list} {ps : List Nat} (r : Rep h lst ps) : Fwd h lst ps :=
  ⟨r.len, fun _ => r.head, fun _ => r.tail, r.valid, r.nodup,
    fun k h0 h1 => r.next k h0 (by omega)⟩

theorem load_next_ok {h : Heap} {p : Nat} (hv : h.valid p) : h.load_next p = .ok (h.next p) := by
  simp [Heap.load_next, hv]

theorem load_prev_ok {h : Heap} {p : Nat} (hv : h.valid p) : h.load_prev p = .ok (h.prev p) := by
  simp [Heap.load_prev, hv]

theorem load_data_ok {h : Heap} {p : Nat} (hv : h.valid p) : h.load_data p = .ok (h.data p) := by
  simp [Heap.load_data, hv]

theorem Fwd.len_nonneg {h : Heap} {lst : list} {ps : List Nat} (r : Fwd h lst ps) :
    0 ≤ lst.length := by have := r.len; omega

theorem Fwd.walk_from {h : Heap} {lst : list} {ps : List Nat} (r : Fwd h lst ps) (d : Nat)
    (a : Int) (ha : 0 ≤ a) (hd : a + d < ps.length) :
    walk_next h d (nth ps a) = .ok (nth ps (a + d)) := by
  induction d generalizing a with
  | zero => simp [walk_next]
  | succ d ih =>
    have hv : h.valid (nth ps a) := nth_valid r.valid ha (by omega)
    have := ih (a + 1) (by omega) (by push_cast at hd; omega)
    simp only [walk_next, load_next_ok hv, Except.bind]
    rw [r.next a ha (by push_cast at hd; omega), this]
    congr 2; push_cast; omega

theorem Fwd.walk {h : Heap} {lst : list} {ps : List Nat} (r : Fwd h lst ps) {k : Int}
    (h0 : 0 ≤ k) (h1 : k < lst.length) : walk_next h k.toNat lst.head = .ok (nth ps k) := by
  have hl := r.len
  rw [r.head (by omega)]
  have := r.walk_from k.toNat 0 (le_refl _) (by omega)
  rw [this]; congr 2; omega

theorem Fwd.get_eq {h : Heap} {lst : list} {ps : List Nat} (r : Fwd h lst ps) {k : Int}
    (h0 : 0 ≤ k) (h1 : k < lst.length) : get h lst k = .ok (h.data (nth ps k)) := by
  have hl := r.len
  have hc : ¬ (k ≥ lst.length ∨ k < 0) := by omega
  have hv : h.valid (nth ps k) := nth_valid r.valid h0 (by omega)
  simp only [get, hc, if_false, r.walk h0 h1, bind, Except.bind, load_data_ok hv]

theorem Fwd._get_eq {h : Heap} {lst : list} {ps : List Nat} (r : Fwd h lst ps) {k : Int}
    (h0 : 0 ≤ k) (h1 : k < lst.length) : _get h lst k = .ok (nth ps k) := by
  have hc : ¬ (k ≥ lst.length ∨ k < 0) := by omega
  simp only [_get, hc, if_false, r.walk h0 h1]

theorem walk_next_error {h : Heap} {k : Nat} {p : Nat} {e : Fault}
    (hw : walk_next h k p = .error e) : e = .invalid_pointer := by
  induction k generalizing p with
  | zero => simp [walk_next] at hw
  | succ k ih =>
    simp only [walk_next, Heap.load_next] at hw
    split_ifs at hw with hv
    · exact ih hw
    · simp only [Except.bind, Except.error.injEq] at hw
      exact hw.symm

theorem get_oob_iff (h : Heap) (lst : list) (index : Int) :
    get h lst index = .error .index_out_of_bounds ↔ index < 0 ∨ index ≥ lst.length := by
  constructor
  · intro hg
    by_contra hc
    have hc2 : ¬ (index ≥ lst.length ∨ index < 0) := by omega
    simp only [get, hc2, if_false, bind, Except.bind] at hg
    cases hw : walk_next h index.toNat lst.head with
    | error e =>
      rw [hw] at hg
      have := walk_next_error hw
      simp only [Except.error.injEq] at hg
      rw [hg] at this
      exact Fault.noConfusion this
    | ok n =>
      rw [hw] at hg
      simp only [Heap.load_data] at hg
      split_ifs at hg
      exact Fault.noConfusion (Except.error.inj hg)
  · intro hc
    have hc2 : index ≥ lst.length ∨ index < 0 := by omega
    simp [get, hc2]

theorem map_getElem?_nth (f : Nat → Nat) (ps : List Nat) {k : Int} (h0 : 0 ≤ k)
    (h1 : k < ps.length) : (ps.map f)[k.toNat]? = some (f (nth ps k)) := by
  have hk : k.toNat < ps.length := by omega
  have hn : ¬ (k < 0) := by omega
  simp [nth, hn, List.getElem?_eq_getElem hk]

theorem consistent_iff_iter_at {h : Heap} {iter : list_iterator} {ps : List Nat}
    (r : Rep h iter.lst ps) :
    consistent h iter ↔ 0 ≤ iter.index ∧ iter.index < ps.length ∧
      iter = iter_at iter.lst ps iter.index := by
  unfold consistent iter_at
  rw [r.nodes_eq, r.len]
  constructor
  · rintro ⟨h0, h1, h2⟩
    refine ⟨h0, h1, ?_⟩
    cases iter; simp_all
  · rintro ⟨h0, h1, h2⟩
    refine ⟨h0, h1, ?_⟩
    rw [h2]

theorem rep_next_at {h : Heap} {lst : list} {ps : List Nat} (r : Rep h lst ps) {c : Int}
    (h0 : 0 ≤ c) (h1 : c + 1 < ps.length) :
    next h (iter_at lst ps c) = .ok (iter_at lst ps (c + 1), c + 1) := by
  have hv : h.valid (nth ps c) := nth_valid r.valid h0 (by omega)
  have hnz : nth ps (c + 1) ≠ 0 := nth_ne_zero r.valid (by omega) h1
  simp only [next, iter_at, load_next_ok hv, bind, Except.bind, r.next c h0 (by omega),
    if_neg hnz]

theorem rep_next_at_tail {h : Heap} {lst : list} {ps : List Nat} (r : Rep h lst ps) {c : Int}
    (h0 : 0 ≤ c) (h1 : c + 1 = ps.length) :
    next h (iter_at lst ps c) = .ok (iter_at lst ps c, c) := by
  have hv : h.valid (nth ps c) := nth_valid r.valid h0 (by omega)
  have hz : nth ps (c + 1) = 0 := nth_of_ge ps (by omega)
  simp only [next, iter_at, load_next_ok hv, bind, Except.bind, r.next c h0 (by omega),
    hz, if_true]

theorem rep_prev_at {h : Heap} {lst : list} {ps : List Nat} (r : Rep h lst ps) {c : Int}
    (h0 : 0 < c) (h1 : c < ps.length) :
    prev h (iter_at lst ps c) = .ok (iter_at lst ps (c - 1), c - 1) := by
  have hv : h.valid (nth ps c) := nth_valid r.valid (by omega) h1
  have hnz : nth ps (c - 1) ≠ 0 := nth_ne_zero r.valid (by omega) (by omega)
  simp only [prev, iter_at, load_prev_ok hv, bind, Except.bind, r.prev c (by omega) h1,
    if_neg hnz]

theorem rep_prev_at_head {h : Heap} {lst : list} {ps : List Nat} (r : Rep h lst ps)
    (h1 : 0 < ps.length) :
    prev h (iter_at lst ps 0) = .ok (iter_at lst ps 0, 0) := by
  have hv : h.valid (nth ps 0) := nth_valid r.valid (le_refl _) (by omega)
  have hz : nth ps (0 - 1) = 0 := nth_of_neg ps (by omega)
  simp only [prev, iter_at, load_prev_ok hv, bind, Except.bind,
    r.prev 0 (le_refl _) (by omega), hz, if_true]

theorem rep_steps_forward {h : Heap} {lst : list} {ps : List Nat} (r : Rep h lst ps) (d : Nat)
    (c : Int) (h0 : 0 ≤ c) (h1 : c + d < ps.length) :
    iget_steps h true d (iter_at lst ps c) = .ok (iter_at lst ps (c + d)) := by
  induction d generalizing c with
  | zero => simp [iget_steps]
  | succ d ih =>
    have := ih (c + 1) (by omega) (by push_cast at h1; omega)
    simp only [iget_steps, if_true, rep_next_at r h0 (by push_cast at h1; omega), Except.map,
      Except.bind, this]
    congr 2; push_cast; omega

theorem rep_steps_backward {h : Heap} {lst : list} {ps : List Nat} (r : Rep h lst ps) (d : Nat)
    (c : Int) (h0 : 0 ≤ c - d) (h1 : c < ps.length) :
    iget_steps h false d (iter_at lst ps c) = .ok (iter_at lst ps (c - d)) := by
  induction d generalizing c with
  | zero => simp [iget_steps]
  | succ d ih =>
    have := ih (c - 1) (by push_cast at h0; omega) (by omega)
    simp only [iget_steps, Bool.false_eq_true, if_false,
      rep_prev_at r (by push_cast at h0; omega) h1, Except.map, Except.bind, this]
    congr 2; push_cast; omega

theorem rep_iget_plan_spec {h : Heap} {lst : list} {ps : List Nat} (r : Rep h lst ps)
    {c k : Int} (c0 : 0 ≤ c) (c1 : c < ps.length) (k0 : 0 ≤ k) (k1 : k < ps.length) :
    ∃ (c2 : Int) (f : Bool) (d : Int), iget_plan (iter_at lst ps c) k = (iter_at lst ps c2, f, d) ∧
      0 ≤ c2 ∧ c2 < ps.length ∧ 0 ≤ d ∧ (if f then c2 + d = k else c2 - d = k) := by
  have hl := r.len
  have hh := r.head
  have ht := r.tail
  by_cases hf : k > c
  · by_cases ht2 : lst.length - k - 1 < k - c
    · refine ⟨lst.length - 1, false, lst.length - k - 1, ?_, by omega, by omega, by omega, ?_⟩
      · simp [iget_plan, iter_at, hf, ht2, ht, hl]; omega
      · simp only [Bool.false_eq_true, if_false]; omega
    · refine ⟨c, true, k - c, ?_, c0, c1, by omega, by simp⟩
      simp [iget_plan, iter_at, hf, ht2]
  · by_cases hh2 : k < c - k
    · by_cases ht2 : lst.length - k - 1 < k
      · refine ⟨lst.length - 1, false, lst.length - k - 1, ?_, by omega, by omega, by omega, ?_⟩
        · simp [iget_plan, iter_at, hf, hh2, ht2, ht, hl]; omega
        · simp only [Bool.false_eq_true, if_false]; omega
      · refine ⟨0, true, k, ?_, le_refl _, by omega, k0, by simp⟩
        simp [iget_plan, iter_at, hf, hh2, ht2, hh]
    · refine ⟨c, false, c - k, ?_, c0, c1, by omega, by simp⟩
      simp [iget_plan, iter_at, hf, hh2]

theorem rep_iget_at {h : Heap} {lst : list} {ps : List Nat} (r : Rep h lst ps)
    {c k : Int} (c0 : 0 ≤ c) (c1 : c < ps.length) (k0 : 0 ≤ k) (k1 : k < ps.length) :
    iget h (iter_at lst ps c) k = .ok (iter_at lst ps k, h.data (nth ps k)) := by
  have hl := r.len
  obtain ⟨c2, f, d, hp, hc0, hc1, hd, hk⟩ := rep_iget_plan_spec r c0 c1 k0 k1
  have hb : ¬ (k ≥ (iter_at lst ps c).lst.length ∨ k < 0) := by
    simp only [iter_at]; omega
  have hv : h.valid (nth ps k) := nth_valid r.valid k0 k1
  have hs : iget_steps h f d.toNat (iter_at lst ps c2) = .ok (iter_at lst ps k) := by
    cases f with
    | true =>
      simp only [if_true] at hk
      rw [rep_steps_forward r d.toNat c2 hc0 (by omega)]
      congr 2; omega
    | false =>
      simp only [Bool.false_eq_true, if_false] at hk
      rw [rep_steps_backward r d.toNat c2 (by omega) hc1]
      congr 2; omega
  simp only [iget, hb, if_false, hp, bind, Except.bind, hs, data]
  simp only [iter_at, load_data_ok hv]

theorem store_next_ok {h : Heap} {p : Nat} (v : Nat) (hv : h.valid p) :
    h.store_next p v = .ok { h with next := upd h.next p v } := by
  simp [Heap.store_next, hv]

theorem store_prev_ok {h : Heap} {p : Nat} (v : Nat) (hv : h.valid p) :
    h.store_prev p v = .ok { h with prev := upd h.prev p v } := by
  simp [Heap.store_prev, hv]

theorem store_data_ok {h : Heap} {p : Nat} (v : Nat) (hv : h.valid p) :
    h.store_data p v = .ok { h with data := upd h.data p v } := by
  simp [Heap.store_data, hv]

theorem nth_append_one (ps : List Nat) (q : Nat) (k : Int) :
    nth (ps ++ [q]) k = if k = ps.length then q else nth ps k := by
  induction ps generalizing k with
  | nil =>
    simp only [List.nil_append, nth_cons, nth_nil, List.length_nil, Nat.cast_zero]
  | cons p ps ih =>
    simp only [List.cons_append, nth_cons, ih, List.length_cons, Nat.cast_add, Nat.cast_one]
    by_cases hk : k = 0
    · subst hk
      have : ¬ ((0 : Int) = (ps.length : Int) + 1) := by omega
      simp [this]
    · by_cases hk2 : k = (ps.length : Int) + 1
      · have : k - 1 = ps.length := by omega
        simp [hk, hk2]
        intro h; omega
      · have : ¬ (k - 1 = ps.length) := by omega
        simp [hk, hk2, this]

/-- One `append` extends a forward-linked list by the freshly allocated node. -/
theorem append_fwd {h : Heap} {lst : list} {ps : List Nat} (r : Fwd h lst ps) (d : Nat) :
    ∃ h2 lst2, append h lst d = .ok (h2, lst2) ∧ Fwd h2 lst2 (ps ++ [h.allocated + 1]) ∧
      h2.data = upd h.data (h.allocated + 1) d ∧ h2.allocated = h.allocated + 1 ∧
      lst2.length = lst.length + 1 := by
  have hl := r.len
  have hnew : ∀ p ∈ ps, p ≠ h.allocated + 1 := by
    intro p hp
    have : p ≤ h.allocated := (r.valid p hp).2
    omega
  have hnd : (ps ++ [h.allocated + 1]).Nodup := by
    rw [List.nodup_append]
    refine ⟨r.nodup, List.nodup_singleton _, ?_⟩
    intro a ha hb
    rw [List.mem_singleton] at hb
    exact hnew a ha hb
  by_cases h0 : lst.length = 0
  · have hps : ps = [] := List.length_eq_zero.mp (by omega)
    subst hps
    refine ⟨{ h with allocated := h.allocated + 1, data := upd h.data (h.allocated + 1) d },
      { lst with head := h.allocated + 1, tail := h.allocated + 1, length := lst.length + 1 },
      ?_, ⟨?_, ?_, ?_, ?_, hnd, ?_⟩, ?_, ?_, ?_⟩
    · simp [append, malloc, Heap.store_data, Heap.valid, h0, bind, Except.bind]
    all_goals simp [nth_cons, Heap.valid, h0]
    intro k k0 k1; omega
  · have hpos : 0 < ps.length := by omega
    have hvt : h.valid lst.tail := by
      rw [r.tail hpos]; exact nth_valid r.valid (by omega) (by omega)
    refine ⟨{ allocated := h.allocated + 1, data := upd h.data (h.allocated + 1) d,
              next := upd (upd h.next lst.tail (h.allocated + 1)) (h.allocated + 1) 0,
              prev := upd h.prev (h.allocated + 1) lst.tail },
      { lst with tail := h.allocated + 1, length := lst.length + 1 },
      ?_, ⟨?_, ?_, ?_, ?_, hnd, ?_⟩, ?_, ?_, ?_⟩
    · simp [append, malloc, Heap.store_data, Heap.store_next, Heap.store_prev, Heap.valid, h0,
        bind, Except.bind, hvt.1, Nat.le_succ_of_le hvt.2]
    · simp; omega
    · intro _
      simp only [nth_append_one]
      rw [if_neg (by omega)]
      exact r.head hpos
    · intro _
      simp [nth_append_one]
    · intro p hp
      rcases List.mem_append.mp hp with hp | hp
      · exact ⟨(r.valid p hp).1, Nat.le_succ_of_le (r.valid p hp).2⟩
      · rw [List.mem_singleton] at hp
        subst hp
        exact ⟨Nat.succ_pos _, le_refl _⟩
    · intro k k0 k1
      simp only [List.length_append, List.length_singleton, Nat.cast_add, Nat.cast_one] at k1
      simp only [nth_append_one, upd]
      have hk : ¬ (k = ps.length) := by omega
      have hkn : nth ps k ≠ h.allocated + 1 := hnew _ (nth_mem ps k0 (by omega))
      rw [if_neg hk, if_neg hkn]
      by_cases hk2 : k + 1 = ps.length
      · have : nth ps k = lst.tail := by rw [r.tail hpos]; congr 1; omega
        rw [if_pos hk2, if_pos this]
      · have : nth ps k ≠ lst.tail := by
          rw [r.tail hpos]
          intro he
          have := nth_inj r.nodup k0 (by omega) (by omega) (by omega) he
          omega
        rw [if_neg hk2, if_neg this]
        exact r.next k k0 (by omega)
    · rfl
    · rfl
    · rfl

theorem nth_cons_succ (p : Nat) (ps : List Nat) {k : Int} (h0 : 0 ≤ k) :
    nth (p :: ps) (k + 1) = nth ps k := by
  have : k + 1 ≠ 0 := by omega
  rw [nth_cons, if_neg this, add_sub_cancel_right]

theorem nth_cons_zero (p : Nat) (ps : List Nat) : nth (p :: ps) 0 = p := by
  rw [nth_cons, if_pos rfl]

theorem fwd_empty (h : Heap) {lst : list} (h0 : lst.length = 0) : Fwd h lst [] :=
  ⟨by simpa using h0, by simp, by simp, by simp, List.nodup_nil, by
    intro k k0 k1; simp at k1; omega⟩

/-- A run of `append` calls extends a forward-linked list by as many fresh nodes
as there are items, holding the items in order. -/
theorem appends_fwd {h : Heap} {lst : list} {ps : List Nat} (r : Fwd h lst ps) (ds : List Nat) :
    ∃ h2 lst2 qs, appends h lst ds = .ok (h2, lst2) ∧ Fwd h2 lst2 (ps ++ qs) ∧
      (ps ++ qs).map h2.data = ps.map h.data ++ ds ∧ lst2.length = lst.length + ds.length := by
  induction ds generalizing h lst ps with
  | nil => exact ⟨h, lst, [], rfl, by simpa using r, by simp, by simp⟩
  | cons d ds ih =>
    obtain ⟨h1, lst1, e1, r1, hd1, ha1, hl1⟩ := append_fwd r d
    obtain ⟨h2, lst2, qs, e2, r2, hd2, hl2⟩ := ih r1
    refine ⟨h2, lst2, (h.allocated + 1) :: qs, ?_, by simpa using r2, ?_, ?_⟩
    · simp only [appends, e1, Except.bind, e2]
    · have : (ps ++ (h.allocated + 1) :: qs) = (ps ++ [h.allocated + 1]) ++ qs := by simp
      rw [this, hd2, hd1]
      have hps : ∀ p ∈ ps, upd h.data (h.allocated + 1) d p = h.data p := by
        intro p hp
        have : p ≤ h.allocated := (r.valid p hp).2
        have hne : p ≠ h.allocated + 1 := by omega
        simp [upd, hne]
      simp [List.map_congr_left hps, upd]
    · rw [hl2, hl1]; simp only [List.length_cons, Nat.cast_add, Nat.cast_one]; omega

/-- On a forward-linked list of at least two nodes `pop` unlinks the first. -/
theorem pop_fwd {h : Heap} {lst : list} {p q : Nat} {ps : List Nat}
    (r : Fwd h lst (p :: q :: ps)) :
    ∃ h2 lst2, pop h lst = .ok (h2, lst2, h.data p) ∧ Fwd h2 lst2 (q :: ps) ∧
      h2.data = h.data ∧ h2.next = h.next ∧ h2.prev = upd h.prev q 0 ∧
      h2.allocated = h.allocated ∧ lst2.length = lst.length - 1 ∧ lst2.head = q ∧
      lst2.tail = lst.tail := by
  have hl := r.len
  simp only [List.length_cons, Nat.cast_add, Nat.cast_one] at hl
  have hh : lst.head = p := by rw [r.head (by simp), nth_cons_zero]
  have hvp : h.valid p := r.valid p (by simp)
  have hvq : h.valid q := r.valid q (by simp)
  have hnq : h.next p = q := by
    have := r.next 0 (le_refl _) (by simp only [List.length_cons, Nat.cast_add, Nat.cast_one]; omega)
    rw [nth_cons_zero, zero_add] at this
    rw [this]
    simp [nth_cons]
  have h0 : lst.length ≠ 0 := by omega
  refine ⟨{ h with prev := upd h.prev q 0 }, { lst with head := q, length := lst.length - 1 },
    ?_, ⟨?_, ?_, ?_, ?_, ?_, ?_⟩, rfl, rfl, rfl, rfl, rfl, rfl, rfl⟩
  · simp only [pop, h0, if_false, hh, load_next_ok hvp, hnq, bind, Except.bind,
      store_prev_ok 0 hvq]
    simp [Heap.load_data, Heap.valid, hvp.1, hvp.2]
  · simp only [List.length_cons, Nat.cast_add, Nat.cast_one]; omega
  · intro _; exact (nth_cons_zero q ps).symm
  · intro _
    have := r.tail (by simp)
    simp only [List.length_cons, Nat.cast_add, Nat.cast_one] at this ⊢
    rw [this]
    have e : (ps.length : Int) + 1 + 1 - 1 = ((ps.length : Int) + 1 - 1) + 1 := by omega
    rw [e, nth_cons_succ _ _ (by omega)]
  · intro x hx
    exact r.valid x (List.mem_cons_of_mem _ hx)
  · exact (List.nodup_cons.mp r.nodup).2
  · intro k k0 k1
    simp only [List.length_cons, Nat.cast_add, Nat.cast_one] at k1
    have := r.next (k + 1) (by omega)
      (by simp only [List.length_cons, Nat.cast_add, Nat.cast_one]; omega)
    rw [nth_cons_succ _ _ k0, nth_cons_succ _ _ (by omega)] at this
    exact this

theorem nth_eq_iff {ps : List Nat} (hnd : ps.Nodup) {a b : Int} (ha0 : 0 ≤ a)
    (ha : a < ps.length) (hb0 : 0 ≤ b) (hb : b < ps.length) : nth ps a = nth ps b ↔ a = b :=
  ⟨nth_inj hnd ha0 ha hb0 hb, fun e => by rw [e]⟩

theorem nth_rotate_one (ps : List Nat) {k : Int} (k0 : 0 ≤ k) :
    nth (ps.rotate 1) k = if k + 1 = ps.length then nth ps 0 else nth ps (k + 1) := by
  cases ps with
  | nil => simp [nth_nil]
  | cons p qs =>
    rw [List.rotate_cons_succ, List.rotate_zero, nth_append_one, nth_cons_zero,
      nth_cons_succ _ _ k0]
    simp only [List.length_cons, Nat.cast_add, Nat.cast_one, add_left_inj]

theorem Frame.refl (ps : List Nat) (h : Heap) : Frame ps h h :=
  ⟨rfl, rfl, fun _ _ => ⟨rfl, rfl⟩⟩

theorem Frame.trans {ps qs : List Nat} {h h2 h3 : Heap} (f1 : Frame ps h h2)
    (f2 : Frame qs h2 h3) (hq : ∀ x, x ∈ qs → x ∈ ps) : Frame ps h h3 :=
  ⟨f2.1.trans f1.1, f2.2.1.trans f1.2.1, fun x hx =>
    ⟨((f2.2.2 x (fun hm => hx (hq x hm))).1).trans (f1.2.2 x hx).1,
     ((f2.2.2 x (fun hm => hx (hq x hm))).2).trans (f1.2.2 x hx).2⟩⟩

/-- Two heaps representing the same node sequence and agreeing elsewhere are equal. -/
theorem rep_unique {h h2 : Heap} {lst lst2 : list} {ps : List Nat} (r : Rep h lst ps)
    (r2 : Rep h2 lst2 ps) (f : Frame ps h h2) : h2 = h ∧ lst2 = lst := by
  constructor
  · obtain ⟨hd, ha, hf⟩ := f
    have hp : h2.prev = h.prev := by
      funext x
      by_cases hx : x ∈ ps
      · obtain ⟨k, k0, k1, rfl⟩ := (mem_iff_nth ps x).mp hx
        rw [r.prev k k0 k1, r2.prev k k0 k1]
      · exact (hf x hx).1
    have hn : h2.next = h.next := by
      funext x
      by_cases hx : x ∈ ps
      · obtain ⟨k, k0, k1, rfl⟩ := (mem_iff_nth ps x).mp hx
        rw [r.next k k0 k1, r2.next k k0 k1]
      · exact (hf x hx).2
    cases h; cases h2; simp_all
  · have h1 := r.len; have h2 := r2.len
    have h3 := r.head; have h4 := r2.head
    have h5 := r.tail; have h6 := r2.tail
    cases lst; cases lst2; simp_all

/-- On a doubly-linked list of at least two nodes `cycle` moves the first node
behind the last one. -/
theorem cycle_rep {h : Heap} {lst : list} {ps : List Nat} (r : Rep h lst ps)
    (hn : 1 < ps.length) :
    ∃ h2 lst2, cycle h lst = .ok (h2, lst2) ∧ Rep h2 lst2 (ps.rotate 1) ∧ Frame ps h h2 := by
  have hl := r.len
  have hv0 : h.valid (nth ps 0) := nth_valid r.valid (le_refl _) (by omega)
  have hv1 : h.valid (nth ps 1) := nth_valid r.valid (by omega) (by omega)
  have hvt : h.valid (nth ps ((ps.length : Int) - 1)) := nth_valid r.valid (by omega) (by omega)
  have hn0 : h.next (nth ps 0) = nth ps 1 := r.next 0 (le_refl _) (by omega)
  have hc1 : lst.length > 1 := by omega
  have hc2 : lst.length ≠ 0 := by omega
  have hc3 : lst.length - 1 ≠ 0 := by omega
  refine ⟨{ h with prev := upd (upd h.prev (nth ps 1) 0) (nth ps 0) lst.tail,
                   next := upd (upd h.next lst.tail (nth ps 0)) (nth ps 0) 0 },
    { lst with head := nth ps 1, tail := nth ps 0 }, ?_, ⟨?_, ?_, ?_, ?_, ?_, ?_, ?_⟩, ?_⟩
  · simp only [cycle, hc1, if_true, _pop_node, hc2, if_false, r.head, load_next_ok hv0, hn0,
      bind, Except.bind, store_prev_ok 0 hv1, _append_node, hc3]
    simp [Heap.store_next, Heap.store_prev, Heap.valid, hv0.1, hv0.2, r.tail, hvt.1, hvt.2]
  · simpa using hl
  · rw [nth_rotate_one ps (le_refl _), if_neg (by omega)]; rfl
  · simp only [List.length_rotate]
    rw [nth_rotate_one ps (by omega), if_pos (by omega)]
  · intro p hp
    exact r.valid p (List.mem_rotate.mp hp)
  · exact List.nodup_rotate.mpr r.nodup
  · intro k k0 k1
    simp only [List.length_rotate] at k1
    rw [nth_rotate_one ps k0, nth_rotate_one ps (by omega)]
    simp only [upd, r.tail]
    by_cases hk : k + 1 = ps.length
    · rw [if_pos hk, if_pos rfl, if_neg (by omega)]
      exact (nth_of_ge ps (by omega)).symm
    · have e0 : nth ps (k + 1) ≠ nth ps 0 := by
        rw [Ne, nth_eq_iff r.nodup (by omega) (by omega) (le_refl _) (by omega)]; omega
      rw [if_neg hk, if_neg e0]
      by_cases hk2 : k + 1 + 1 = ps.length
      · have e1 : nth ps (k + 1) = nth ps ((ps.length : Int) - 1) := by congr 1; omega
        rw [if_pos hk2, if_pos e1]
      · have e1 : nth ps (k + 1) ≠ nth ps ((ps.length : Int) - 1) := by
          rw [Ne, nth_eq_iff r.nodup (by omega) (by omega) (by omega) (by omega)]; omega
        rw [if_neg hk2, if_neg e1]
        exact r.next (k + 1) (by omega) (by omega)
  · intro k k0 k1
    simp only [List.length_rotate] at k1
    rw [nth_rotate_one ps k0]
    simp only [upd, r.tail]
    by_cases hk : k + 1 = ps.length
    · rw [if_pos hk, if_pos rfl, nth_rotate_one ps (by omega), if_neg (by omega)]
      congr 1; omega
    · have e0 : nth ps (k + 1) ≠ nth ps 0 := by
        rw [Ne, nth_eq_iff r.nodup (by omega) (by omega) (le_refl _) (by omega)]; omega
      rw [if_neg hk, if_neg e0]
      by_cases hk2 : k = 0
      · subst hk2
        rw [zero_add, if_pos rfl]
        exact (nth_of_neg _ (by omega)).symm
      · have e1 : nth ps (k + 1) ≠ nth ps 1 := by
          rw [Ne, nth_eq_iff r.nodup (by omega) (by omega) (by omega) (by omega)]; omega
        rw [if_neg e1, nth_rotate_one ps (by omega), if_neg (by omega),
          r.prev (k + 1) (by omega) (by omega)]
        congr 1; omega
  · refine ⟨rfl, rfl, fun x hx => ?_⟩
    have x0 : x ≠ nth ps 0 := fun e => hx (e ▸ nth_mem ps (le_refl _) (by omega))
    have x1 : x ≠ nth ps 1 := fun e => hx (e ▸ nth_mem ps (by omega) (by omega))
    have xt : x ≠ lst.tail := fun e => hx (e ▸ r.tail ▸ nth_mem ps (by omega) (by omega))
    simp [upd, x0, x1, xt]

theorem _swap_eq (h : Heap) (lst : list) (n1 n2 : Nat) (v1 : h.valid n1) (v2 : h.valid n2)
    (vp1 : h.prev n1 = 0 ∨ h.valid (h.prev n1)) (vn1 : h.next n1 = 0 ∨ h.valid (h.next n1))
    (vp2 : h.prev n2 = 0 ∨ h.valid (h.prev n2)) (vn2 : h.next n2 = 0 ∨ h.valid (h.next n2)) :
    _swap h lst n1 n2 = .ok (swap_heap h n1 n2, swap_list lst n1 n2) := by
  unfold Heap.valid at *
  simp only [_swap, Heap.load_prev, Heap.load_next, Heap.valid, v1, v2, and_self, if_true,
    bind, Except.bind, Heap.store_prev, Heap.store_next, swap_heap, swap_list, upd_if]
  by_cases a1 : h.prev n1 = 0 <;> by_cases a2 : h.next n1 = 0 <;>
    by_cases a3 : h.prev n2 = 0 <;> by_cases a4 : h.next n2 = 0 <;>
    by_cases a5 : h.next n1 = n2 <;>
    simp_all

theorem nth_set (ps : List Nat) (a : Nat) (v : Nat) (k : Int) :
    nth (ps.set a v) k = if k = a ∧ a < ps.length then v else nth ps k := by
  by_cases hk : k < 0
  · have : ¬ (k = (a : Int) ∧ a < ps.length) := by omega
    rw [if_neg this, nth_of_neg _ hk, nth_of_neg _ hk]
  · obtain ⟨m, rfl⟩ : ∃ m : Nat, k = (m : Int) := ⟨k.toNat, by omega⟩
    simp only [nth, hk, if_false, Int.toNat_ofNat, List.getD_eq_getElem?_getD, Nat.cast_inj,
      List.getElem?_set]
    by_cases hma : a = m
    · subst hma
      by_cases hl : a < ps.length
      · simp [hl]
      · have : ps[a]? = none := List.getElem?_eq_none (by omega)
        simp [hl, this]
    · have : ¬ (m = a) := fun e => hma e.symm
      simp [hma, this]

theorem length_exchange (ps : List Nat) (i j : Int) : (exchange ps i j).length = ps.length := by
  simp [exchange]

theorem nth_exchange (ps : List Nat) {i j : Int} (i0 : 0 ≤ i) (i1 : i < ps.length)
    (j0 : 0 ≤ j) (j1 : j < ps.length) (k : Int) :
    nth (exchange ps i j) k = nth ps (if k = j then i else if k = i then j else k) := by
  unfold exchange
  rw [nth_set, nth_set, List.length_set]
  have ei : ((i.toNat : Nat) : Int) = i := by omega
  have ej : ((j.toNat : Nat) : Int) = j := by omega
  have hi : i.toNat < ps.length := by omega
  have hj : j.toNat < ps.length := by omega
  simp only [ei, ej, hi, hj, and_true]
  split_ifs <;> rfl

theorem rep_nth_eq_left {h : Heap} {lst : list} {ps : List Nat} (r : Rep h lst ps) {a : Int}
    (a0 : 0 ≤ a) (a1 : a < ps.length) (b : Int) : nth ps a = nth ps b ↔ a = b := by
  constructor
  · intro e
    by_cases hb : 0 ≤ b ∧ b < ps.length
    · exact nth_inj r.nodup a0 a1 hb.1 hb.2 e
    · have hz : nth ps b = 0 := by
        by_cases hb0 : b < 0
        · exact nth_of_neg ps hb0
        · exact nth_of_ge ps (by omega)
      exact absurd (e.trans hz) (nth_ne_zero r.valid a0 a1)
  · intro e; rw [e]

theorem rep_nth_eq_right {h : Heap} {lst : list} {ps : List Nat} (r : Rep h lst ps) {b : Int}
    (b0 : 0 ≤ b) (b1 : b < ps.length) (a : Int) : nth ps a = nth ps b ↔ a = b := by
  rw [eq_comm, rep_nth_eq_left r b0 b1, eq_comm]

theorem rep_nth_eq_zero {h : Heap} {lst : list} {ps : List Nat} (r : Rep h lst ps) (a : Int) :
    nth ps a = 0 ↔ a < 0 ∨ (ps.length : Int) ≤ a := by
  constructor
  · intro e
    by_contra hc
    exact nth_ne_zero r.valid (by omega) (by omega) e
  · rintro (ha | ha)
    · exact nth_of_neg ps ha
    · exact nth_of_ge ps ha

theorem mem_exchange (ps : List Nat) {i j : Int} (i0 : 0 ≤ i) (i1 : i < ps.length)
    (j0 : 0 ≤ j) (j1 : j < ps.length) (x : Nat) : x ∈ exchange ps i j ↔ x ∈ ps := by
  rw [mem_iff_nth, mem_iff_nth, length_exchange]
  constructor
  · rintro ⟨k, k0, k1, rfl⟩
    rw [nth_exchange ps i0 i1 j0 j1]
    exact ⟨_, by split_ifs <;> omega, by split_ifs <;> omega, rfl⟩
  · rintro ⟨k, k0, k1, rfl⟩
    refine ⟨if k = j then i else if k = i then j else k, by split_ifs <;> omega,
      by split_ifs <;> omega, ?_⟩
    rw [nth_exchange ps i0 i1 j0 j1]
    congr 1
    split_ifs <;> omega

theorem nodup_exchange {ps : List Nat} (hnd : ps.Nodup) {i j : Int} (i0 : 0 ≤ i)
    (i1 : i < ps.length) (j0 : 0 ≤ j) (j1 : j < ps.length) : (exchange ps i j).Nodup := by
  apply nodup_of_nth_inj
  intro a b a0 ab b1
  rw [length_exchange] at b1
  rw [nth_exchange ps i0 i1 j0 j1, nth_exchange ps i0 i1 j0 j1]
  intro e
  have := nth_inj hnd (by split_ifs <;> omega) (by split_ifs <;> omega)
    (by split_ifs <;> omega) (by split_ifs <;> omega) e
  split_ifs at this <;> omega

theorem upd_apply (f : Nat → Nat) (a v x : Nat) : upd f a v x = if x = a then v else f x := rfl

theorem upd_if_apply (c : Bool) (f : Nat → Nat) (a v x : Nat) :
    upd_if c f a v x = if c = true ∧ x = a then v else f x := by
  unfold upd_if upd
  cases c <;> simp

theorem swap_list_head (lst : list) (n1 n2 : Nat) :
    (swap_list lst n1 n2).head = if lst.head = n1 then n2 else lst.head := by
  by_cases h1 : lst.head = n1 <;> by_cases h2 : lst.tail = n2 <;> simp [swap_list, h1, h2]

theorem swap_list_tail (lst : list) (n1 n2 : Nat) :
    (swap_list lst n1 n2).tail = if lst.tail = n2 then n1 else lst.tail := by
  by_cases h1 : lst.head = n1 <;> by_cases h2 : lst.tail = n2 <;> simp [swap_list, h1, h2]

theorem swap_list_length (lst : list) (n1 n2 : Nat) :
    (swap_list lst n1 n2).length = lst.length := by
  by_cases h1 : lst.head = n1 <;> by_cases h2 : lst.tail = n2 <;> simp [swap_list, h1, h2]

theorem swap_rep {h : Heap} {lst : list} {ps : List Nat} (r : Rep h lst ps) {i j : Int}
    (i0 : 0 ≤ i) (ij : i ≤ j) (j1 : j < ps.length) :
    Rep (swap_heap h (nth ps i) (nth ps j)) (swap_list lst (nth ps i) (nth ps j))
      (exchange ps i j) := by
  have i1 : i < ps.length := by omega
  have j0 : 0 ≤ j := by omega
  have li := rep_nth_eq_left r i0 i1
  have lj := rep_nth_eq_left r j0 j1
  have ri := rep_nth_eq_right r i0 i1
  have rj := rep_nth_eq_right r j0 j1
  have z := rep_nth_eq_zero r
  have ni := r.next i i0 i1
  have nj := r.next j j0 j1
  have pi := r.prev i i0 i1
  have pj := r.prev j j0 j1
  refine ⟨?_, ?_, ?_, ?_, ?_, ?_, ?_⟩
  · rw [length_exchange, ← r.len, swap_list_length]
  · rw [nth_exchange ps i0 i1 j0 j1, swap_list_head, r.head]
    simp only [ri]
    split_ifs <;> first | omega | (congr 1; omega)
  · rw [nth_exchange ps i0 i1 j0 j1, length_exchange, swap_list_tail, r.tail]
    simp only [rj]
    split_ifs <;> omega
  · intro p hp
    exact r.valid p ((mem_exchange ps i0 i1 j0 j1 p).mp hp)
  · exact nodup_exchange r.nodup i0 i1 j0 j1
  · intro k k0 k1
    rw [length_exchange] at k1
    have s0 : 0 ≤ (if k = j then i else if k = i then j else k) := by split_ifs <;> omega
    have s1 : (if k = j then i else if k = i then j else k) < ps.length := by
      split_ifs <;> omega
    have ls := rep_nth_eq_left r s0 s1
    have ns := r.next _ s0 s1
    rw [nth_exchange ps i0 i1 j0 j1, nth_exchange ps i0 i1 j0 j1]
    simp only [swap_heap, upd_if_apply, upd_apply, ni, nj, pi, pj, ns, Bool.and_eq_true,
      decide_eq_true_eq, Bool.not_eq_true', decide_eq_false_iff_not, ne_eq, li, lj, ri, rj, ls, z]
    split_ifs <;> first | omega | (congr 1; omega)
  · intro k k0 k1
    rw [length_exchange] at k1
    have s0 : 0 ≤ (if k = j then i else if k = i then j else k) := by split_ifs <;> omega
    have s1 : (if k = j then i else if k = i then j else k) < ps.length := by
      split_ifs <;> omega
    have ls := rep_nth_eq_left r s0 s1
    have ns := r.prev _ s0 s1
    rw [nth_exchange ps i0 i1 j0 j1, nth_exchange ps i0 i1 j0 j1]
    simp only [swap_heap, upd_if_apply, upd_apply, ni, nj, pi, pj, ns, Bool.and_eq_true,
      decide_eq_true_eq, Bool.not_eq_true', decide_eq_false_iff_not, ne_eq, li, lj, ri, rj, ls, z]
    split_ifs <;> first | omega | (congr 1; omega)

theorem rep_zero_or_valid {h : Heap} {lst : list} {ps : List Nat} (r : Rep h lst ps) (k : Int) :
    nth ps k = 0 ∨ h.valid (nth ps k) := by
  by_cases hk : 0 ≤ k ∧ k < ps.length
  · exact Or.inr (nth_valid r.valid hk.1 hk.2)
  · refine Or.inl ((rep_nth_eq_zero r k).mpr ?_); omega

theorem exchange_comm (ps : List Nat) {i j : Int} (i0 : 0 ≤ i) (i1 : i < ps.length)
    (j0 : 0 ≤ j) (j1 : j < ps.length) : exchange ps i j = exchange ps j i := by
  apply nth_ext (by rw [length_exchange, length_exchange])
  intro k _ _
  rw [nth_exchange ps i0 i1 j0 j1, nth_exchange ps j0 j1 i0 i1]
  congr 1
  split_ifs <;> omega

theorem exchange_exchange (ps : List Nat) {i j : Int} (i0 : 0 ≤ i) (i1 : i < ps.length)
    (j0 : 0 ≤ j) (j1 : j < ps.length) : exchange (exchange ps i j) i j = ps := by
  apply nth_ext (by rw [length_exchange, length_exchange])
  intro k _ _
  have l := length_exchange ps i j
  rw [nth_exchange (exchange ps i j) i0 (by rw [l]; exact i1) j0 (by rw [l]; exact j1),
    nth_exchange ps i0 i1 j0 j1]
  congr 1
  split_ifs <;> omega

theorem swap_frame {h : Heap} {lst : list} {ps : List Nat} (r : Rep h lst ps) {i j : Int}
    (i0 : 0 ≤ i) (i1 : i < ps.length) (j0 : 0 ≤ j) (j1 : j < ps.length) :
    Frame ps h (swap_heap h (nth ps i) (nth ps j)) := by
  refine ⟨rfl, rfl, fun x hx => ?_⟩
  have hne : ∀ m : Int, nth ps m ≠ 0 → x ≠ nth ps m := by
    intro m hm e
    have : 0 ≤ m ∧ m < ps.length := by
      by_contra hc
      exact hm ((rep_nth_eq_zero r m).mpr (by omega))
    exact hx (e ▸ nth_mem ps this.1 this.2)
  have xi : x ≠ nth ps i := hne i (nth_ne_zero r.valid i0 i1)
  have xj : x ≠ nth ps j := hne j (nth_ne_zero r.valid j0 j1)
  simp only [swap_heap, upd_if_apply, upd_apply, r.next i i0 i1, r.next j j0 j1,
    r.prev i i0 i1, r.prev j j0 j1, Bool.and_eq_true, decide_eq_true_eq, ne_eq, xi, xj,
    if_false]
  constructor
  · rw [if_neg, if_neg]
    · rintro ⟨⟨hz, -⟩, e⟩; exact hne _ hz e
    · rintro ⟨hz, e⟩; exact hne _ hz e
  · rw [if_neg, if_neg]
    · rintro ⟨hz, e⟩; exact hne _ hz e
    · rintro ⟨⟨hz, -⟩, e⟩; exact hne _ hz e

/-- On a doubly-linked list `swap` at two valid indices exchanges the two nodes
and touches nothing outside the list. -/
theorem swap_rep_ok {h : Heap} {lst : list} {ps : List Nat} (r : Rep h lst ps) {i j : Int}
    (i0 : 0 ≤ i) (i1 : i < ps.length) (j0 : 0 ≤ j) (j1 : j < ps.length) :
    ∃ h2 lst2, swap h lst i j = .ok (h2, lst2) ∧ Rep h2 lst2 (exchange ps i j) ∧
      Frame ps h h2 := by
  have hl := r.len
  have hb : ¬ (i < 0 ∨ i ≥ lst.length ∨ j < 0 ∨ j ≥ lst.length) := by omega
  have gi := r.fwd._get_eq i0 (by omega)
  have gj := r.fwd._get_eq j0 (by omega)
  have vi := nth_valid r.valid i0 i1
  have vj := nth_valid r.valid j0 j1
  have e1 : ∀ a b : Int, 0 ≤ a → a < ps.length → 0 ≤ b → b < ps.length →
      _swap h lst (nth ps a) (nth ps b)
        = .ok (swap_heap h (nth ps a) (nth ps b), swap_list lst (nth ps a) (nth ps b)) := by
    intro a b a0 a1 b0 b1
    apply _swap_eq
    · exact nth_valid r.valid a0 a1
    · exact nth_valid r.valid b0 b1
    · rw [r.prev a a0 a1]; exact rep_zero_or_valid r _
    · rw [r.next a a0 a1]; exact rep_zero_or_valid r _
    · rw [r.prev b b0 b1]; exact rep_zero_or_valid r _
    · rw [r.next b b0 b1]; exact rep_zero_or_valid r _
  by_cases hij : i < j
  · refine ⟨swap_heap h (nth ps i) (nth ps j), swap_list lst (nth ps i) (nth ps j), ?_,
      swap_rep r i0 (by omega) j1, swap_frame r i0 i1 j0 j1⟩
    simp only [swap, hb, if_false, gi, gj, bind, Except.bind, hij, if_true, e1 i j i0 i1 j0 j1]
  · refine ⟨swap_heap h (nth ps j) (nth ps i), swap_list lst (nth ps j) (nth ps i), ?_, ?_,
      swap_frame r j0 j1 i0 i1⟩
    · simp only [swap, hb, if_false, gi, gj, bind, Except.bind, hij, e1 j i j0 j1 i0 i1]
    · rw [exchange_comm ps i0 i1 j0 j1]
      exact swap_rep r j0 (by omega) i1

theorem swap_comm (h : Heap) (lst : list) (i j : Int) : swap h lst j i = swap h lst i j := by
  by_cases hb : i < 0 ∨ i ≥ lst.length ∨ j < 0 ∨ j ≥ lst.length
  · have hb2 : j < 0 ∨ j ≥ lst.length ∨ i < 0 ∨ i ≥ lst.length := by omega
    simp only [swap, hb, hb2, if_true]
  · have hb2 : ¬ (j < 0 ∨ j ≥ lst.length ∨ i < 0 ∨ i ≥ lst.length) := by omega
    simp only [swap, hb, hb2, if_false, bind, Except.bind]
    cases gi : _get h lst i with
    | error e =>
      cases gj : _get h lst j with
      | error e2 =>
        have hi2 : ¬ (i ≥ lst.length ∨ i < 0) := by omega
        have hj2 : ¬ (j ≥ lst.length ∨ j < 0) := by omega
        simp only [_get, hi2, hj2, if_false] at gi gj
        rw [walk_next_error gi, walk_next_error gj]
      | ok n2 => rfl
    | ok n1 =>
      cases gj : _get h lst j with
      | error e2 => rfl
      | ok n2 =>
        simp only []
        by_cases hij : i < j
        · have : ¬ (j < i) := by omega
          simp only [hij, this, if_true, if_false]
        · by_cases hji : j < i
          · simp only [hij, hji, if_true, if_false]
          · have : i = j := by omega
            subst this
            rw [gi] at gj
            cases gj
            rfl

theorem nth_map (f : Nat → Nat) (ps : List Nat) {k : Int} (k0 : 0 ≤ k) (k1 : k < ps.length) :
    nth (ps.map f) k = f (nth ps k) := by
  have hn : ¬ (k < 0) := by omega
  have hk : k.toNat < ps.length := by omega
  simp [nth, hn, List.getElem?_eq_getElem hk]

theorem exchange_map (f : Nat → Nat) (ps : List Nat) {i j : Int} (i0 : 0 ≤ i)
    (i1 : i < ps.length) (j0 : 0 ≤ j) (j1 : j < ps.length) :
    exchange (ps.map f) i j = (exchange ps i j).map f := by
  unfold exchange
  rw [nth_map f ps i0 i1, nth_map f ps j0 j1, List.map_set, List.map_set]

theorem cycle_small (h : Heap) (lst : list) (hs : lst.length ≤ 1) :
    cycle h lst = .ok (h, lst) := by
  have : ¬ (lst.length > 1) := by omega
  simp only [cycle, this, if_false]

theorem cycle_times_small (h : Heap) (lst : list) (hs : lst.length ≤ 1) (m : Nat) :
    cycle_times m (h, lst) = .ok (h, lst) := by
  induction m with
  | zero => rfl
  | succ m ih => simp only [cycle_times, cycle_small h lst hs, Except.bind, ih]

theorem cycle_times_rep {h : Heap} {lst : list} {ps : List Nat} (r : Rep h lst ps)
    (hn : 1 < ps.length) (m : Nat) :
    ∃ h2 lst2, cycle_times m (h, lst) = .ok (h2, lst2) ∧ Rep h2 lst2 (ps.rotate m) ∧
      Frame ps h h2 := by
  induction m generalizing h lst ps with
  | zero => exact ⟨h, lst, rfl, by simpa using r, Frame.refl ps h⟩
  | succ m ih =>
    obtain ⟨h1, lst1, e1, r1, f1⟩ := cycle_rep r hn
    obtain ⟨h2, lst2, e2, r2, f2⟩ := ih r1 (by rw [List.length_rotate]; exact hn)
    refine ⟨h2, lst2, ?_, ?_, Frame.trans f1 f2 (fun x hx => List.mem_rotate.mp hx)⟩
    · simp only [cycle_times, e1, Except.bind, e2]
    · rw [List.rotate_rotate, Nat.add_comm] at r2
      exact r2

theorem length_bstep (cmp_func : Nat → Nat → Int) (key : Nat → Nat) (j : Int) (ps : List Nat) :
    (bstep cmp_func key j ps).length = ps.length := by
  unfold bstep; split_ifs
  · exact length_exchange ps j (j + 1)
  · rfl

theorem length_bpass (cmp_func : Nat → Nat → Int) (key : Nat → Nat) (m : Nat) (j : Int)
    (ps : List Nat) : (bpass cmp_func key m j ps).length = ps.length := by
  induction m generalizing j ps with
  | zero => rfl
  | succ m ih => rw [bpass, ih, length_bstep]

theorem length_bpasses (cmp_func : Nat → Nat → Int) (key : Nat → Nat) (n t : Nat)
    (ps : List Nat) : (bpasses cmp_func key n t ps).length = ps.length := by
  induction t generalizing ps with
  | zero => rfl
  | succ t ih => rw [bpasses, ih, length_bpass]

/-- One inner step of `bubble_sort` on a doubly-linked list, from any consistent
iterator position: it succeeds, the node sequence changes as `bstep` says, the
data fields are untouched and the iterator is consistent again. -/
theorem rep_bubble_step {h : Heap} {lst : list} {ps : List Nat} (r : Rep h lst ps)
    (cmp_func : Nat → Nat → Int) (data_func : Nat → Nat) {c j : Int} (c0 : 0 ≤ c)
    (c1 : c < ps.length) (j0 : 0 ≤ j) (j1 : j + 1 < ps.length) :
    ∃ h2 lst2 c2, bubble_step cmp_func data_func j (h, iter_at lst ps c)
        = .ok (h2, iter_at lst2 (bstep cmp_func (fun p => data_func (h.data p)) j ps) c2) ∧
      Rep h2 lst2 (bstep cmp_func (fun p => data_func (h.data p)) j ps) ∧
      Frame ps h h2 ∧ 0 ≤ c2 ∧ c2 < ps.length := by
  have hj : j < ps.length := by omega
  have vj : h.valid (nth ps j) := nth_valid r.valid j0 hj
  have vj1 : h.valid (nth ps (j + 1)) := nth_valid r.valid (by omega) j1
  have nj : h.next (nth ps j) = nth ps (j + 1) := r.next j j0 hj
  have hi := rep_iget_at r c0 c1 j0 hj
  by_cases hs : cmp_func (data_func (h.data (nth ps j))) (data_func (h.data (nth ps (j + 1)))) ≠ 0
  · have hsw : _swap h lst (nth ps j) (nth ps (j + 1))
        = .ok (swap_heap h (nth ps j) (nth ps (j + 1)),
            swap_list lst (nth ps j) (nth ps (j + 1))) := by
      apply _swap_eq _ _ _ _ vj vj1
      · rw [r.prev j j0 hj]; exact rep_zero_or_valid r _
      · rw [r.next j j0 hj]; exact rep_zero_or_valid r _
      · rw [r.prev _ (by omega) j1]; exact rep_zero_or_valid r _
      · rw [r.next _ (by omega) j1]; exact rep_zero_or_valid r _
    refine ⟨swap_heap h (nth ps j) (nth ps (j + 1)), swap_list lst (nth ps j) (nth ps (j + 1)),
      j + 1, ?_, ?_, swap_frame r j0 hj (by omega) j1, by omega, j1⟩
    · simp only [bubble_step, hi, bind, Except.bind]
      simp only [iter_at, load_data_ok vj, load_next_ok vj,
        nj, load_data_ok vj1, hs, if_true, hsw, bstep, ne_eq, not_false_eq_true]
      rw [nth_exchange ps j0 hj (by omega) j1, if_pos rfl]
    · simp only [bstep, hs, if_true, ne_eq, not_false_eq_true]
      exact swap_rep r j0 (by omega) j1
  · refine ⟨h, lst, j, ?_, ?_, Frame.refl ps h, j0, hj⟩
    · simp only [bubble_step, hi, bind, Except.bind]
      simp only [iter_at, load_data_ok vj, load_next_ok vj,
        nj, load_data_ok vj1, hs, if_false, bstep]
    · simp only [bstep, hs, if_false]
      exact r

theorem perm_exchange {ps : List Nat} (hnd : ps.Nodup) {i j : Int} (i0 : 0 ≤ i)
    (i1 : i < ps.length) (j0 : 0 ≤ j) (j1 : j < ps.length) : (exchange ps i j).Perm ps :=
  (List.perm_ext_iff_of_nodup (nodup_exchange hnd i0 i1 j0 j1) hnd).mpr
    (mem_exchange ps i0 i1 j0 j1)

theorem perm_bstep (cmp_func : Nat → Nat → Int) (key : Nat → Nat) {ps : List Nat}
    (hnd : ps.Nodup) {j : Int} (j0 : 0 ≤ j) (j1 : j + 1 < ps.length) :
    (bstep cmp_func key j ps).Perm ps := by
  unfold bstep; split_ifs
  · exact perm_exchange hnd j0 (by omega) (by omega) j1
  · exact List.Perm.refl ps

theorem perm_bpass (cmp_func : Nat → Nat → Int) (key : Nat → Nat) (m : Nat) {ps : List Nat}
    (hnd : ps.Nodup) {j : Int} (j0 : 0 ≤ j) (jm : j + m < ps.length) :
    (bpass cmp_func key m j ps).Perm ps := by
  induction m generalizing j ps with
  | zero => exact List.Perm.refl ps
  | succ m ih =>
    have p1 := perm_bstep cmp_func key hnd j0 (by push_cast at jm; omega)
    have := ih (p1.nodup_iff.mpr hnd) (j := j + 1) (by omega)
      (by rw [length_bstep]; push_cast at jm; omega)
    exact this.trans p1

theorem perm_bpasses (cmp_func : Nat → Nat → Int) (key : Nat → Nat) (n t : Nat) {ps : List Nat}
    (hnd : ps.Nodup) (hn : n < ps.length) : (bpasses cmp_func key n t ps).Perm ps := by
  induction t generalizing ps with
  | zero => exact List.Perm.refl ps
  | succ t ih =>
    have p1 := perm_bpass cmp_func key n hnd (le_refl (0 : Int)) (by omega)
    have := ih (p1.nodup_iff.mpr hnd) (by rw [length_bpass]; exact hn)
    exact this.trans p1

/-- The inner loop of `bubble_sort` on a doubly-linked list: `m` steps from
position `j`, all inside the list. -/
theorem rep_bubble_pass (cmp_func : Nat → Nat → Int) (data_func : Nat → Nat) (m : Nat)
    {h : Heap} {lst : list} {ps : List Nat} (r : Rep h lst ps) {c j : Int} (c0 : 0 ≤ c)
    (c1 : c < ps.length) (j0 : 0 ≤ j) (jm : j + m < ps.length) :
    ∃ h2 lst2 c2, for_loop (bubble_step cmp_func data_func) m j (h, iter_at lst ps c)
        = .ok (h2, iter_at lst2 (bpass cmp_func (fun p => data_func (h.data p)) m j ps) c2) ∧
      Rep h2 lst2 (bpass cmp_func (fun p => data_func (h.data p)) m j ps) ∧
      Frame ps h h2 ∧ 0 ≤ c2 ∧ c2 < ps.length := by
  induction m generalizing h lst ps c j with
  | zero => exact ⟨h, lst, c, rfl, r, Frame.refl ps h, c0, c1⟩
  | succ m ih =>
    push_cast at jm
    obtain ⟨h1, lst1, c2, e1, r1, f1, d0, d1⟩ :=
      rep_bubble_step r cmp_func data_func c0 c1 j0 (by omega)
    have l1 := length_bstep cmp_func (fun p => data_func (h.data p)) j ps
    obtain ⟨h2, lst2, c3, e2, r2, f2, d2, d3⟩ := ih r1 (c := c2) (j := j + 1) d0
      (by rw [l1]; exact d1) (by omega) (by rw [l1]; omega)
    rw [f1.1] at e2 r2
    refine ⟨h2, lst2, c3, ?_, r2, Frame.trans f1 f2 ?_, d2, by rw [← l1]; exact d3⟩
    · simp only [for_loop, e1, Except.bind, e2, bpass]
    · intro x hx
      exact (perm_bstep cmp_func _ r.nodup j0 (by omega)).mem_iff.mp hx

/-- The outer loop of `bubble_sort` on a doubly-linked list: `t` passes of `n`
inner steps each. -/
theorem rep_bubble_passes (cmp_func : Nat → Nat → Int) (data_func : Nat → Nat) (n t : Nat)
    {h : Heap} {lst : list} {ps : List Nat} (r : Rep h lst ps) {c : Int} (c0 : 0 ≤ c)
    (c1 : c < ps.length) (hn : n < ps.length) (i : Int) :
    ∃ h2 lst2 c2,
      for_loop (fun _ s => for_loop (bubble_step cmp_func data_func) n 0 s) t i
          (h, iter_at lst ps c)
        = .ok (h2, iter_at lst2 (bpasses cmp_func (fun p => data_func (h.data p)) n t ps) c2) ∧
      Rep h2 lst2 (bpasses cmp_func (fun p => data_func (h.data p)) n t ps) ∧
      Frame ps h h2 ∧ 0 ≤ c2 ∧ c2 < ps.length := by
  induction t generalizing h lst ps c i with
  | zero => exact ⟨h, lst, c, rfl, r, Frame.refl ps h, c0, c1⟩
  | succ t ih =>
    obtain ⟨h1, lst1, c2, e1, r1, f1, d0, d1⟩ :=
      rep_bubble_pass cmp_func data_func n r c0 c1 (le_refl (0 : Int)) (by omega)
    have l1 := length_bpass cmp_func (fun p => data_func (h.data p)) n 0 ps
    obtain ⟨h2, lst2, c3, e2, r2, f2, d2, d3⟩ := ih r1 (c := c2) d0
      (by rw [l1]; exact d1) (by rw [l1]; exact hn) (i + 1)
    rw [f1.1] at e2 r2
    refine ⟨h2, lst2, c3, ?_, r2, Frame.trans f1 f2 ?_, d2, by rw [← l1]; exact d3⟩
    · simp only [for_loop, e1, Except.bind, e2, bpasses]
    · intro x hx
      exact (perm_bpass cmp_func _ n r.nodup (le_refl (0 : Int)) (by omega)).mem_iff.mp hx

/-- The function `bubble_sort` on a non-empty doubly-linked list, from any
consistent iterator position `c`: it succeeds, the node sequence is the one
`length - 1` passes of `length - 1` steps produce, nothing outside the list
changes and the iterator is back at position `c`. -/
theorem rep_bubble_sort (cmp_func : Nat → Nat → Int) (data_func : Nat → Nat)
    {h : Heap} {lst : list} {ps : List Nat} (r : Rep h lst ps) {c : Int} (c0 : 0 ≤ c)
    (c1 : c < ps.length) :
    ∃ h2 lst2, bubble_sort h (iter_at lst ps c) cmp_func data_func
        = .ok (h2, iter_at lst2 (bpasses cmp_func (fun p => data_func (h.data p))
            (ps.length - 1) (ps.length - 1) ps) c) ∧
      Rep h2 lst2 (bpasses cmp_func (fun p => data_func (h.data p))
            (ps.length - 1) (ps.length - 1) ps) ∧
      Frame ps h h2 := by
  have hl := r.len
  have hn : (lst.length - 1).toNat = ps.length - 1 := by omega
  obtain ⟨h2, lst2, c2, e, r2, f, d0, d1⟩ :=
    rep_bubble_passes cmp_func data_func (ps.length - 1) (ps.length - 1) r c0 c1 (by omega) 0
  have l2 := length_bpasses cmp_func (fun p => data_func (h.data p)) (ps.length - 1)
    (ps.length - 1) ps
  have hi := rep_iget_at r2 d0 (by rw [l2]; exact d1) c0 (by rw [l2]; exact c1)
  refine ⟨h2, lst2, ?_, r2, f⟩
  simp only [bubble_sort, iter_at, hn, bind, Except.bind]
  simp only [iter_at] at e hi
  simp only [e, hi]

theorem cmp_int_ne_zero (mem : Nat → Int) (x y : Nat) :
    cmp_int mem x y ≠ 0 ↔ mem y ≤ mem x := by
  unfold cmp_int
  split_ifs with h1 h2
  · simp only [ne_eq, not_true_eq_false, false_iff, not_le]; exact h1
  · simp only [ne_eq, one_ne_zero, not_false_eq_true, true_iff]; omega
  · simp only [ne_eq, OfNat.ofNat_ne_zero, not_false_eq_true, true_iff]; omega

theorem passInv_bstep (mem : Nat → Int) (d : Nat → Nat) {s j : Int} {ps : List Nat}
    (g : PassInv (fun p => mem (d p)) s j ps) (j0 : 0 ≤ j) (j1 : j + 1 < ps.length) :
    PassInv (fun p => mem (d p)) s (j + 1)
      (bstep (cmp_int mem) (fun p => extract_int (d p)) j ps) := by
  have hj : j < ps.length := by omega
  unfold bstep
  by_cases hs : cmp_int mem (extract_int (d (nth ps j))) (extract_int (d (nth ps (j + 1)))) ≠ 0
  · rw [if_pos hs]
    have hsw : mem (d (nth ps (j + 1))) ≤ mem (d (nth ps j)) :=
      (cmp_int_ne_zero mem _ _).mp hs
    intro a b a0 ab b1 hb
    rw [length_exchange] at b1
    rw [nth_exchange ps j0 hj (by omega) j1, nth_exchange ps j0 hj (by omega) j1]
    by_cases hb1 : b = j + 1
    · rw [if_pos hb1]
      by_cases ha1 : a = j + 1
      · rw [if_pos ha1]
      · rw [if_neg ha1]
        by_cases ha2 : a = j
        · rw [if_pos ha2]; exact hsw
        · rw [if_neg ha2]
          exact g a j a0 (by omega) hj (Or.inr (Or.inl rfl))
    · rw [if_neg hb1]
      by_cases hb2 : b = j
      · rw [if_pos hb2]
        have ha1 : ¬ (a = j + 1) := by omega
        rw [if_neg ha1]
        by_cases ha2 : a = j
        · rw [if_pos ha2]
        · rw [if_neg ha2]
          exact g a (j + 1) a0 (by omega) j1 (Or.inl (by omega))
      · rw [if_neg hb2]
        have hb3 : s ≤ b ∨ b = j ∨ (s - 1 ≤ b ∧ b ≤ j) := by omega
        by_cases ha1 : a = j + 1
        · rw [if_pos ha1]
          exact g j b j0 (by omega) b1 hb3
        · rw [if_neg ha1]
          by_cases ha2 : a = j
          · rw [if_pos ha2]
            exact g (j + 1) b (by omega) (by omega) b1 hb3
          · rw [if_neg ha2]
            exact g a b a0 ab b1 hb3
  · rw [if_neg hs]
    have hns : mem (d (nth ps j)) < mem (d (nth ps (j + 1))) := by
      by_contra hc
      exact hs ((cmp_int_ne_zero mem _ _).mpr (by simp only [extract_int]; omega))
    intro a b a0 ab b1 hb
    by_cases hb1 : b = j + 1
    · subst hb1
      by_cases ha1 : a = j + 1
      · rw [ha1]
      · have := g a j a0 (by omega) hj (Or.inr (Or.inl rfl))
        simp only at this ⊢
        omega
    · exact g a b a0 ab b1 (by omega)

theorem passInv_bpass (mem : Nat → Int) (d : Nat → Nat) (m : Nat) {s j : Int} {ps : List Nat}
    (g : PassInv (fun p => mem (d p)) s j ps) (j0 : 0 ≤ j) (jm : j + m < ps.length) :
    PassInv (fun p => mem (d p)) s (j + m)
      (bpass (cmp_int mem) (fun p => extract_int (d p)) m j ps) := by
  induction m generalizing j ps with
  | zero => simpa [bpass] using g
  | succ m ih =>
    push_cast at jm
    have g1 := passInv_bstep mem d g j0 (by omega)
    have := ih g1 (by omega) (by rw [length_bstep]; omega)
    rw [bpass]
    have e : j + ((m + 1 : Nat) : Int) = j + 1 + m := by push_cast; omega
    rw [e]
    exact this

theorem sortedFrom_bpasses (mem : Nat → Int) (d : Nat → Nat) (t : Nat) {s : Int}
    {ps : List Nat} (g : SortedFrom (fun p => mem (d p)) s ps) (hn : 0 < ps.length) :
    SortedFrom (fun p => mem (d p)) (s - t)
      (bpasses (cmp_int mem) (fun p => extract_int (d p)) (ps.length - 1) t ps) := by
  induction t generalizing s ps with
  | zero => simpa [bpasses] using g
  | succ t ih =>
    have g0 : PassInv (fun p => mem (d p)) s 0 ps := by
      intro a b a0 ab b1 hb
      by_cases hsb : s ≤ b
      · exact g a b a0 ab b1 hsb
      · have hb0 : b = 0 := by omega
        have ha0 : a = 0 := by omega
        rw [hb0, ha0]
    have g1 := passInv_bpass mem d (ps.length - 1) g0 (le_refl _) (by omega)
    have l1 := length_bpass (cmp_int mem) (fun p => extract_int (d p)) (ps.length - 1) 0 ps
    have g2 : SortedFrom (fun p => mem (d p)) (s - 1)
        (bpass (cmp_int mem) (fun p => extract_int (d p)) (ps.length - 1) 0 ps) := by
      intro a b a0 ab b1 hb
      rw [l1] at b1
      exact g1 a b a0 ab (by rw [l1]; exact b1) (by omega)
    have := ih g2 (by rw [l1]; exact hn)
    rw [l1] at this
    rw [bpasses]
    have e : s - ((t + 1 : Nat) : Int) = s - 1 - t := by push_cast; omega
    rw [e]
    exact this

/-- After `length - 1` passes the values are in ascending order. -/
theorem sorted_bpasses (mem : Nat → Int) (d : Nat → Nat) (ps : List Nat) (a b : Int)
    (a0 : 0 ≤ a) (ab : a ≤ b) (b1 : b < ps.length) :
    mem (d (nth (bpasses (cmp_int mem) (fun p => extract_int (d p)) (ps.length - 1)
        (ps.length - 1) ps) a))
      ≤ mem (d (nth (bpasses (cmp_int mem) (fun p => extract_int (d p)) (ps.length - 1)
        (ps.length - 1) ps) b)) := by
  have g : SortedFrom (fun p => mem (d p)) ps.length ps := by
    intro a b _ _ b1 hb; omega
  have := sortedFrom_bpasses mem d (ps.length - 1) g (by omega)
  by_cases hb : b = 0
  · have ha : a = 0 := by omega
    rw [ha, hb]
  · exact this a b a0 ab (by rw [length_bpasses]; exact b1) (by omega)

theorem nth_natCast (ps : List Nat) {i : Nat} (hi : i < ps.length) : nth ps (i : Int) = ps[i] := by
  have hn : ¬ ((i : Int) < 0) := by omega
  simp [nth, hn, List.getElem?_eq_getElem hi]

/-- On well-formed lists the sort is correct: from any consistent iterator
position `bubble_sort` with `cmp_int` and `extract_int` succeeds, adjacent
values of the result are in ascending order, the data of the result are a
permutation of those of the input, the list is well formed again and the
iterator is back at its index. -/
theorem bubble_sort_sorts_well_formed (mem : Nat → Int) (h : Heap) (iter : list_iterator)
    (w : well_formed h iter.lst) (hc : consistent h iter) :
    ∃ h2 iter2, bubble_sort h iter (cmp_int mem) extract_int = .ok (h2, iter2) ∧
      (∀ i : Int, 0 ≤ i → i + 1 < iter2.lst.length →
        ∃ p q, get h2 iter2.lst i = .ok p ∧ get h2 iter2.lst (i + 1) = .ok q ∧
          mem p ≤ mem q) ∧
      ((elements h2 iter2.lst).map mem).Sorted (fun x y => x ≤ y) ∧
      (elements h2 iter2.lst).Perm (elements h iter.lst) ∧
      well_formed h2 iter2.lst ∧ consistent h2 iter2 ∧ iter2.index = iter.index := by
  have r := rep_of_wf w
  obtain ⟨c0, c1, hi⟩ := (consistent_iff_iter_at r).mp hc
  obtain ⟨h2, lst2, e, r2, f⟩ := rep_bubble_sort (cmp_int mem) extract_int r c0 c1
  have l2 := length_bpasses (cmp_int mem) (fun p => extract_int (h.data p))
    ((nodes h iter.lst).length - 1) ((nodes h iter.lst).length - 1) (nodes h iter.lst)
  have hl2 := r2.len
  have srt := sorted_bpasses mem h.data (nodes h iter.lst)
  have hp := perm_bpasses (cmp_int mem) (fun p => extract_int (h.data p))
    ((nodes h iter.lst).length - 1) ((nodes h iter.lst).length - 1) r.nodup (by omega)
  rw [← hi] at e
  refine ⟨h2, _, e, ?_, ?_, ?_, r2.to_wf, ?_, rfl⟩
  · intro i i0 i1
    simp only [iter_at] at i1
    refine ⟨_, _, r2.fwd.get_eq i0 (by omega), r2.fwd.get_eq (by omega) i1, ?_⟩
    rw [f.1]
    exact srt i (i + 1) i0 (by omega) (by omega)
  · simp only [iter_at, elements, r2.nodes_eq, f.1, List.map_map]
    rw [List.Sorted, List.pairwise_iff_getElem]
    intro i j hi1 hj1 hij
    simp only [List.length_map, l2] at hi1 hj1
    simp only [List.getElem_map, Function.comp]
    rw [← nth_natCast _ (by rw [l2]; exact hi1), ← nth_natCast _ (by rw [l2]; exact hj1)]
    exact srt i j (by omega) (by omega) (by omega)
  · simp only [iter_at, elements, r2.nodes_eq, f.1]
    exact hp.map _
  · rw [consistent_iff_iter_at r2]
    simp only [iter_at, l2]
    exact ⟨c0, c1, trivial⟩

/-- The empty-list error of `pop` is raised exactly on lists of length 0. -/
theorem pop_empty_iff (h : Heap) (lst : list) :
    pop h lst = .error .empty_list ↔ lst.length = 0 := by
  by_cases h0 : lst.length = 0
  · simp [pop, h0]
  · simp only [pop, h0, if_false, bind, Except.bind, Heap.load_next, Heap.store_prev,
      Heap.load_data, iff_false]
    by_cases v1 : h.valid lst.head
    · by_cases v2 : h.valid (h.next lst.head)
      · have v3 : Heap.valid { h with prev := upd h.prev (h.next lst.head) 0 } lst.head := v1
        simp [v1, v2, v3]
      · simp [v1, v2]
    · simp [v1]

/-- On every well-formed list of length 1 `pop` dereferences `NULL`. -/
theorem pop_single_faults (h : Heap) (lst : list) (w : well_formed h lst)
    (h1 : lst.length = 1) : pop h lst = .error .invalid_pointer := by
  have r := rep_of_wf w
  have hl := r.len
  have h0 : lst.length ≠ 0 := by omega
  have hv : h.valid (nth (nodes h lst) 0) := nth_valid r.valid (le_refl _) (by omega)
  have hn : h.next (nth (nodes h lst) 0) = 0 := by
    rw [r.next 0 (le_refl _) (by omega)]
    exact nth_of_ge _ (by omega)
  simp only [pop, h0, if_false, r.head, load_next_ok hv, hn, bind, Except.bind]
  simp [Heap.store_prev, Heap.valid]

theorem bubble_sort_eq_loops (h : Heap) (iter : list_iterator) (cmp_func : Nat → Nat → Int)
    (data_func : Nat → Nat) :
    bubble_sort h iter cmp_func data_func
      = (bubble_loops h iter cmp_func data_func).bind
          (fun s => (iget s.1 s.2 iter.index).map (fun r => (s.1, r.1))) := by
  unfold bubble_sort bubble_loops
  simp only [bind, Except.bind, Except.map]

theorem bubble_probe_error (cmp_func : Nat → Nat → Int) (data_func : Nat → Nat) {j : Int}
    {s : Heap × list_iterator} {e : Fault} (hp : bubble_probe j s = .error e) :
    bubble_step cmp_func data_func j s = .error e := by
  unfold bubble_probe at hp
  unfold bubble_step
  simp only [bind, Except.bind] at hp ⊢
  cases hi : iget s.1 s.2 j with
  | error e2 =>
    rw [hi] at hp
    simp only [Except.error.injEq] at hp
    rw [hp]
  | ok r =>
    rw [hi] at hp
    simp only [Heap.load_next, Heap.load_data] at hp ⊢
    by_cases hv : s.1.valid r.1.current
    · simp only [hv, if_true] at hp
      exact Except.noConfusion hp
    · simp only [hv, if_false, Except.error.injEq] at hp ⊢
      exact hp

theorem bubble_step_logged_fst (cmp_func : Nat → Nat → Int) (data_func : Nat → Nat) (j : Int)
    (s : (Heap × list_iterator) × List Probe) :
    (bubble_step_logged cmp_func data_func j s).map Prod.fst
      = bubble_step cmp_func data_func j s.1 := by
  unfold bubble_step_logged
  simp only [bind, Except.bind]
  cases hp : bubble_probe j s.1 with
  | error e =>
    simp only [Except.map]
    exact (bubble_probe_error cmp_func data_func hp).symm
  | ok p =>
    simp only []
    cases bubble_step cmp_func data_func j s.1 with
    | error e => rfl
    | ok s2 => rfl

theorem for_loop_map_fst {σ ρ : Type} (body : Int → σ → Except Fault σ)
    (body2 : Int → σ × ρ → Except Fault (σ × ρ))
    (hb : ∀ j s, (body2 j s).map Prod.fst = body j s.1) (m : Nat) (j : Int) (s : σ × ρ) :
    (for_loop body2 m j s).map Prod.fst = for_loop body m j s.1 := by
  induction m generalizing j s with
  | zero => rfl
  | succ m ih =>
    simp only [for_loop]
    have := hb j s
    cases h2 : body2 j s with
    | error e =>
      rw [h2] at this
      simp only [Except.map] at this
      rw [← this]; rfl
    | ok s2 =>
      rw [h2] at this
      simp only [Except.map] at this
      rw [← this]
      simp only [Except.bind]
      exact ih (j + 1) s2

/-- The log is a ghost: the logged loops compute what the loops compute. -/
theorem bubble_loops_logged_fst (h : Heap) (iter : list_iterator)
    (cmp_func : Nat → Nat → Int) (data_func : Nat → Nat) :
    (bubble_loops_logged h iter cmp_func data_func).map Prod.fst
      = bubble_loops h iter cmp_func data_func := by
  unfold bubble_loops_logged bubble_loops
  exact for_loop_map_fst _ _
    (fun _ s => for_loop_map_fst _ _ (bubble_step_logged_fst cmp_func data_func) _ 0 s) _ 0 _

theorem Probe.inside_of_perm {ps qs : List Nat} (hp : qs.Perm ps) {p : Probe}
    (hi : p.inside qs) : p.inside ps := by
  obtain ⟨h0, h1, h2, h3, h4⟩ := hi
  exact ⟨h0, by rw [← hp.length_eq]; exact h1, h2, hp.mem_iff.mp h3, hp.mem_iff.mp h4⟩

theorem rep_bubble_probe {h : Heap} {lst : list} {ps : List Nat} (r : Rep h lst ps)
    {c j : Int} (c0 : 0 ≤ c) (c1 : c < ps.length) (j0 : 0 ≤ j) (j1 : j + 1 < ps.length) :
    bubble_probe j (h, iter_at lst ps c)
      = .ok { j := j, index := j, current := nth ps j, next := nth ps (j + 1) } := by
  have hj : j < ps.length := by omega
  have vj : h.valid (nth ps j) := nth_valid r.valid j0 hj
  have hi := rep_iget_at r c0 c1 j0 hj
  simp only [bubble_probe, hi, bind, Except.bind]
  simp only [iter_at, load_next_ok vj, r.next j j0 hj]

/-- The logged inner loop on a doubly-linked list: as `rep_bubble_pass`, and each
of the `m` new log entries is an observation inside the list. -/
theorem rep_bubble_pass_logged (cmp_func : Nat → Nat → Int) (data_func : Nat → Nat) (m : Nat)
    {h : Heap} {lst : list} {ps : List Nat} (r : Rep h lst ps) {c j : Int} (c0 : 0 ≤ c)
    (c1 : c < ps.length) (j0 : 0 ≤ j) (jm : j + m < ps.length) (log : List Probe) :
    ∃ h2 lst2 c2 new,
      for_loop (bubble_step_logged cmp_func data_func) m j ((h, iter_at lst ps c), log)
        = .ok ((h2, iter_at lst2 (bpass cmp_func (fun p => data_func (h.data p)) m j ps) c2),
            log ++ new) ∧
      Rep h2 lst2 (bpass cmp_func (fun p => data_func (h.data p)) m j ps) ∧
      Frame ps h h2 ∧ 0 ≤ c2 ∧ c2 < ps.length ∧ new.length = m ∧
      ∀ p ∈ new, p.inside ps := by
  induction m generalizing h lst ps c j log with
  | zero => exact ⟨h, lst, c, [], by simp [for_loop, bpass], r, Frame.refl ps h, c0, c1, rfl,
      by simp⟩
  | succ m ih =>
    push_cast at jm
    obtain ⟨h1, lst1, c2, e1, r1, f1, d0, d1⟩ :=
      rep_bubble_step r cmp_func data_func c0 c1 j0 (by omega)
    have ep := rep_bubble_probe r c0 c1 j0 (by omega)
    have l1 := length_bstep cmp_func (fun p => data_func (h.data p)) j ps
    have p1 := perm_bstep cmp_func (fun p => data_func (h.data p)) r.nodup j0
      (show j + 1 < ps.length by omega)
    obtain ⟨h2, lst2, c3, new, e2, r2, f2, d2, d3, hn, hin⟩ := ih r1 (c := c2) (j := j + 1) d0
      (by rw [l1]; exact d1) (by omega) (by rw [l1]; omega)
      (log ++ [{ j := j, index := j, current := nth ps j, next := nth ps (j + 1) }])
    rw [f1.1] at e2 r2
    refine ⟨h2, lst2, c3,
      { j := j, index := j, current := nth ps j, next := nth ps (j + 1) } :: new, ?_, r2,
      Frame.trans f1 f2 (fun x hx => p1.mem_iff.mp hx), d2, by rw [← l1]; exact d3,
      by simp [hn], ?_⟩
    · simp only [for_loop, bubble_step_logged, ep, e1, bind, Except.bind, e2, bpass,
        List.append_assoc, List.singleton_append]
    · intro p hp
      rcases List.mem_cons.mp hp with rfl | hp
      · exact ⟨j0, (show j + 2 ≤ (ps.length : Int) by omega), rfl, nth_mem ps j0 (by omega),
          nth_mem ps (by omega) (by omega)⟩
      · exact Probe.inside_of_perm p1 (hin p hp)

/-- The logged outer loop on a doubly-linked list: `t` passes of `n` inner steps
add `t * n` log entries, all of them observations inside the list. -/
theorem rep_bubble_passes_logged (cmp_func : Nat → Nat → Int) (data_func : Nat → Nat)
    (n t : Nat) {h : Heap} {lst : list} {ps : List Nat} (r : Rep h lst ps) {c : Int}
    (c0 : 0 ≤ c) (c1 : c < ps.length) (hn : n < ps.length) (i : Int) (log : List Probe) :
    ∃ h2 lst2 c2 new,
      for_loop (fun _ s => for_loop (bubble_step_logged cmp_func data_func) n 0 s) t i
          ((h, iter_at lst ps c), log)
        = .ok ((h2, iter_at lst2 (bpasses cmp_func (fun p => data_func (h.data p)) n t ps) c2),
            log ++ new) ∧
      Rep h2 lst2 (bpasses cmp_func (fun p => data_func (h.data p)) n t ps) ∧
      Frame ps h h2 ∧ 0 ≤ c2 ∧ c2 < ps.length ∧ new.length = t * n ∧
      ∀ p ∈ new, p.inside ps := by
  induction t generalizing h lst ps c i log with
  | zero => exact ⟨h, lst, c, [], by simp [for_loop, bpasses], r, Frame.refl ps h, c0, c1,
      by simp, by simp⟩
  | succ t ih =>
    obtain ⟨h1, lst1, c2, new1, e1, r1, f1, d0, d1, hn1, hin1⟩ :=
      rep_bubble_pass_logged cmp_func data_func n r c0 c1 (le_refl (0 : Int)) (by omega) log
    have l1 := length_bpass cmp_func (fun p => data_func (h.data p)) n 0 ps
    have p1 := perm_bpass cmp_func (fun p => data_func (h.data p)) n r.nodup
      (le_refl (0 : Int)) (show (0 : Int) + n < ps.length by omega)
    obtain ⟨h2, lst2, c3, new2, e2, r2, f2, d2, d3, hn2, hin2⟩ := ih r1 (c := c2) d0
      (by rw [l1]; exact d1) (by rw [l1]; exact hn) (i + 1) (log ++ new1)
    rw [f1.1] at e2 r2
    refine ⟨h2, lst2, c3, new1 ++ new2, ?_, r2,
      Frame.trans f1 f2 (fun x hx => p1.mem_iff.mp hx), d2, by rw [← l1]; exact d3, ?_, ?_⟩
    · simp only [for_loop, e1, Except.bind, e2, bpasses, List.append_assoc]
    · rw [List.length_append, hn1, hn2]; ring
    · intro p hp
      rcases List.mem_append.mp hp with hp | hp
      · exact hin1 p hp
      · exact Probe.inside_of_perm p1 (hin2 p hp)

theorem iget_steps_counted_fst (h : Heap) (forward : Bool) (n : Nat)
    (s : list_iterator × Nat) :
    (iget_steps_counted h forward n s).map Prod.fst = iget_steps h forward n s.1 := by
  induction n generalizing s with
  | zero => rfl
  | succ n ih =>
    simp only [iget_steps_counted, iget_steps]
    cases (if forward = true then next h s.1 else prev h s.1) with
    | error e => rfl
    | ok r =>
      simp only [Except.map, Except.bind]
      exact ih (r.1, s.2 + 1)

theorem iget_steps_counted_count {h : Heap} {forward : Bool} {n : Nat}
    {s r : list_iterator × Nat} (hr : iget_steps_counted h forward n s = .ok r) :
    r.2 = s.2 + n := by
  induction n generalizing s with
  | zero =>
    simp only [iget_steps_counted, Except.ok.injEq] at hr
    rw [← hr]; rfl
  | succ n ih =>
    simp only [iget_steps_counted] at hr
    cases hs : (if forward = true then next h s.1 else prev h s.1) with
    | error e =>
      rw [hs] at hr
      exact Except.noConfusion hr
    | ok q =>
      rw [hs] at hr
      simp only [Except.map, Except.bind] at hr
      rw [ih hr]
      simp only []
      omega

/-- The counter is a ghost: `iget_counted` computes what `iget` computes. -/
theorem iget_counted_fst (h : Heap) (iter : list_iterator) (index : Int) :
    (iget_counted h iter index).map Prod.fst = iget h iter index := by
  unfold iget_counted iget
  by_cases hb : index ≥ iter.lst.length ∨ index < 0
  · simp only [hb, if_true]; rfl
  · simp only [hb, if_false, bind, Except.bind]
    have := iget_steps_counted_fst h (iget_plan iter index).2.1 (iget_plan iter index).2.2.toNat
      ((iget_plan iter index).1, 0)
    cases hc : iget_steps_counted h (iget_plan iter index).2.1 (iget_plan iter index).2.2.toNat
        ((iget_plan iter index).1, 0) with
    | error e =>
      rw [hc] at this
      simp only [Except.map] at this
      rw [← this]; rfl
    | ok r =>
      rw [hc] at this
      simp only [Except.map] at this
      rw [← this]
      simp only []
      cases data h r.1 with
      | error e => rfl
      | ok d => rfl

/-- The number of steps `iget` plans is the least of the three distances: from
the current index, from the head and from the tail. -/
theorem iget_plan_steps (iter : list_iterator) (k : Int) (c0 : 0 ≤ iter.index)
    (c1 : iter.index < iter.lst.length) :
    (iget_plan iter k).2.2 = min |iter.index - k| (min k (iter.lst.length - 1 - k)) := by
  rw [← Int.natCast_natAbs]
  by_cases hf : k > iter.index
  · by_cases ht2 : iter.lst.length - k - 1 < k - iter.index
    · have e : (iget_plan iter k).2.2 = iter.lst.length - k - 1 := by
        simp [iget_plan, hf, ht2]
      rw [e]; omega
    · have e : (iget_plan iter k).2.2 = k - iter.index := by
        simp [iget_plan, hf, ht2]
      rw [e]; omega
  · by_cases hh2 : k < iter.index - k
    · by_cases ht2 : iter.lst.length - k - 1 < k
      · have e : (iget_plan iter k).2.2 = iter.lst.length - k - 1 := by
          simp [iget_plan, hf, hh2, ht2]
        rw [e]; omega
      · have e : (iget_plan iter k).2.2 = k := by
          simp [iget_plan, hf, hh2, ht2]
        rw [e]; omega
    · have e : (iget_plan iter k).2.2 = iter.index - k := by
        simp [iget_plan, hf, hh2]
      rw [e]; omega

theorem rep_bubble_step_zero {h : Heap} {lst : list} {ps : List Nat} (r : Rep h lst ps)
    (cmp_func : Nat → Nat → Int) (data_func : Nat → Nat) {c j : Int} (c0 : 0 ≤ c)
    (c1 : c < ps.length) (j0 : 0 ≤ j) (j1 : j + 1 < ps.length)
    (hs : cmp_func (data_func (h.data (nth ps j))) (data_func (h.data (nth ps (j + 1)))) = 0) :
    bubble_step cmp_func data_func j (h, iter_at lst ps c) = .ok (h, iter_at lst ps j) := by
  have hj : j < ps.length := by omega
  have vj : h.valid (nth ps j) := nth_valid r.valid j0 hj
  have vj1 : h.valid (nth ps (j + 1)) := nth_valid r.valid (by omega) j1
  have nj : h.next (nth ps j) = nth ps (j + 1) := r.next j j0 hj
  have hi := rep_iget_at r c0 c1 j0 hj
  simp only [bubble_step, hi, bind, Except.bind]
  simp only [iter_at, load_data_ok vj, load_next_ok vj, nj, load_data_ok vj1, hs, ne_eq,
    not_true_eq_false, if_false]

theorem fwd_nodes_eq {h : Heap} {lst : list} {ps : List Nat} (r : Fwd h lst ps) :
    nodes h lst = ps := by
  unfold nodes
  have hl := r.len
  apply follow_eq_of
  · omega
  · intro hp; exact (r.head (by omega)).symm
  · intro k h0 h1
    exact r.next k h0 (by omega)

/-- `iappend` through an iterator standing at position `c` of a forward-linked
list: the list grows by the fresh node and the iterator stays where it is. -/
theorem iappend_fwd {h : Heap} {lst : list} {ps : List Nat} (r : Fwd h lst ps) (d : Nat)
    {c : Int} (c0 : 0 ≤ c) (c1 : c < ps.length) :
    ∃ h2 lst2, iappend h (iter_at lst ps c) d
        = .ok (h2, iter_at lst2 (ps ++ [h.allocated + 1]) c) ∧
      Fwd h2 lst2 (ps ++ [h.allocated + 1]) := by
  obtain ⟨h2, lst2, e, r2, -, -, hl2⟩ := append_fwd r d
  have hl := r.len
  have h1 : lst2.length ≠ 1 := by omega
  refine ⟨h2, lst2, ?_, r2⟩
  simp only [iappend, iter_at, e, bind, Except.bind, h1, if_false]
  rw [nth_append_one, if_neg (by omega)]

/-- `iappend` through an iterator over a list of length 0: the list consists of
the fresh node, which becomes the iterator's current node; the iterator's index
is not written. -/
theorem iappend_empty (h : Heap) (iter : list_iterator) (d : Nat)
    (h0 : iter.lst.length = 0) :
    ∃ h2 lst2, iappend h iter d
        = .ok (h2, { index := iter.index, lst := lst2, current := h.allocated + 1 }) ∧
      Fwd h2 lst2 [h.allocated + 1] ∧ lst2.head = h.allocated + 1 ∧ lst2.length = 1 := by
  obtain ⟨h2, lst2, e, r2, -, -, hl2⟩ := append_fwd (fwd_empty h h0) d
  simp only [List.nil_append] at r2
  have h1 : lst2.length = 1 := by omega
  have hh : lst2.head = h.allocated + 1 := by
    rw [r2.head (by simp), nth_cons_zero]
  refine ⟨h2, lst2, ?_, r2, hh, h1⟩
  simp only [iappend, e, bind, Except.bind, h1, if_true, hh]

theorem consistent_iter_at {h : Heap} {lst : list} {ps : List Nat} (hn : nodes h lst = ps)
    (hl : lst.length = ps.length) {c : Int} (c0 : 0 ≤ c) (c1 : c < ps.length) :
    consistent h (iter_at lst ps c) := by
  unfold consistent iter_at
  simp only [hn, hl]
  exact ⟨c0, c1, trivial⟩

theorem nth_eraseIdx (ps : List Nat) (a : Nat) (k : Int) :
    nth (ps.eraseIdx a) k = nth ps (if k < a then k else k + 1) := by
  by_cases hk : k < 0
  · have h1 : k < a := by omega
    rw [if_pos h1, nth_of_neg _ hk, nth_of_neg _ hk]
  · obtain ⟨m, rfl⟩ : ∃ m : Nat, k = (m : Int) := ⟨k.toNat, by omega⟩
    have h1 : ¬ ((m : Int) + 1 < 0) := by omega
    have e1 : ((m : Int) + 1).toNat = m + 1 := by omega
    by_cases hma : (m : Int) < a
    · have : m < a := by omega
      simp only [nth, hk, hma, if_true, if_false, Int.toNat_ofNat, List.getD_eq_getElem?_getD,
        List.getElem?_eraseIdx, this]
    · have : ¬ (m < a) := by omega
      simp only [nth, hk, h1, hma, if_false, Int.toNat_ofNat, e1, List.getD_eq_getElem?_getD,
        List.getElem?_eraseIdx, this]

/-- When `rm` gets past its guards and the node it is about to unlink has a
successor, it unlinks that node and returns its data. -/
theorem rm_unlinks {h : Heap} {lst : list} {ps : List Nat} (r : Rep h lst ps) {index : Int}
    (hi0 : index ≠ 0) (hlt : index < lst.length)
    (he : rm_position index + 1 < ps.length) :
    ∃ h2 lst2, rm h lst index = .ok (h2, lst2, h.data (nth ps (rm_position index))) ∧
      Rep h2 lst2 (ps.eraseIdx (rm_position index).toNat) ∧ Frame ps h h2 := by
  have hl := r.len
  unfold rm_position at he ⊢
  generalize hE : (((index - 1).toNat : Nat) : Int) + 1 = e at he ⊢
  have e1 : 1 ≤ e := by omega
  have hwalk : walk_next h (index - 1).toNat lst.head = .ok (nth ps (e - 1)) := by
    have := r.fwd.walk (k := e - 1) (by omega) (by omega)
    have e2 : (e - 1).toNat = (index - 1).toNat := by omega
    rw [e2] at this
    exact this
  have hnt : index ≠ lst.length - 1 := by omega
  have hg : ¬ (lst.length ≤ index) := by omega
  have v0 : h.valid (nth ps (e - 1)) := nth_valid r.valid (by omega) (by omega)
  have v1 : h.valid (nth ps e) := nth_valid r.valid (by omega) (by omega)
  have v2 : h.valid (nth ps (e + 1)) := nth_valid r.valid (by omega) (by omega)
  have n0 : h.next (nth ps (e - 1)) = nth ps e := by
    have := r.next (e - 1) (by omega) (by omega)
    rw [sub_add_cancel] at this
    exact this
  have n1 : h.next (nth ps e) = nth ps (e + 1) := r.next e (by omega) (by omega)
  have le := rep_nth_eq_left r (a := e) (by omega) (by omega)
  have le0 := rep_nth_eq_left r (a := e - 1) (by omega) (by omega)
  have le1 := rep_nth_eq_left r (a := e + 1) (by omega) (by omega)
  have z := rep_nth_eq_zero r
  have hne : nth ps e ≠ nth ps (e - 1) := by rw [Ne, le]; omega
  have hlen : (ps.eraseIdx e.toNat).length = ps.length - 1 :=
    List.length_eraseIdx_of_lt (by omega)
  have hcast : ((e.toNat : Nat) : Int) = e := by omega
  refine ⟨{ h with next := upd h.next (nth ps (e - 1)) (nth ps (e + 1)),
                   prev := upd h.prev (nth ps (e + 1)) (nth ps (e - 1)) },
    { lst with length := lst.length - 1 }, ?_, ⟨?_, ?_, ?_, ?_, ?_, ?_, ?_⟩, ?_⟩
  · simp only [rm, hg, hi0, if_false, hwalk, bind, Except.bind, load_next_ok v0, n0,
      load_next_ok v1, n1, store_next_ok _ v0, hnt]
    simp [Heap.load_next, Heap.store_prev, Heap.load_data, Heap.valid, v1.1, v1.2, v2.1, v2.2,
      upd, hne, n1]
  · rw [hlen]; simp only []; omega
  · rw [nth_eraseIdx, hcast, if_pos (by omega)]; exact r.head
  · rw [nth_eraseIdx, hcast, hlen, if_neg (by omega), r.tail]
    congr 1; omega
  · intro p hp
    exact r.valid p (List.mem_of_mem_eraseIdx hp)
  · exact (List.eraseIdx_sublist ps _).nodup r.nodup
  · intro k k0 k1
    rw [hlen] at k1
    have s0 : 0 ≤ (if k < e then k else k + 1) := by split_ifs <;> omega
    have s1 : (if k < e then k else k + 1) < ps.length := by split_ifs <;> omega
    have ls := rep_nth_eq_left r s0 s1
    have ns := r.next _ s0 s1
    rw [nth_eraseIdx, nth_eraseIdx, hcast]
    simp only [upd_apply, ns, ls]
    split_ifs <;> first | omega | (congr 1; omega)
  · intro k k0 k1
    rw [hlen] at k1
    have s0 : 0 ≤ (if k < e then k else k + 1) := by split_ifs <;> omega
    have s1 : (if k < e then k else k + 1) < ps.length := by split_ifs <;> omega
    have ls := rep_nth_eq_left r s0 s1
    have ns := r.prev _ s0 s1
    rw [nth_eraseIdx, nth_eraseIdx, hcast]
    simp only [upd_apply, ns, ls]
    split_ifs <;> first | omega | (congr 1; omega)
  · refine ⟨rfl, rfl, fun x hx => ?_⟩
    have x0 : x ≠ nth ps (e - 1) := fun e2 => hx (e2 ▸ nth_mem ps (by omega) (by omega))
    have x2 : x ≠ nth ps (e + 1) := fun e2 => hx (e2 ▸ nth_mem ps (by omega) (by omega))
    simp [upd, x0, x2]

theorem load_next_null (h : Heap) : h.load_next 0 = .error .invalid_pointer := by
  simp [Heap.load_next, Heap.valid]

theorem store_prev_null (h : Heap) (v : Nat) : h.store_prev 0 v = .error .invalid_pointer := by
  simp [Heap.store_prev, Heap.valid]

/-- When `rm` gets past its guards and the node it is about to unlink has no
successor (or does not exist), it dereferences `NULL`. -/
theorem rm_faults {h : Heap} {lst : list} {ps : List Nat} (r : Rep h lst ps) {index : Int}
    (hi0 : index ≠ 0) (hlt : index < lst.length)
    (he : (ps.length : Int) ≤ rm_position index + 1) :
    rm h lst index = .error .invalid_pointer := by
  have hl := r.len
  unfold rm_position at he
  have hg : ¬ (lst.length ≤ index) := by omega
  by_cases hpos : 0 < index
  · -- the node at `index` is the tail
    have hidx : index + 1 = ps.length := by omega
    have hwalk : walk_next h (index - 1).toNat lst.head = .ok (nth ps (index - 1)) :=
      r.fwd.walk (k := index - 1) (by omega) (by omega)
    have v0 : h.valid (nth ps (index - 1)) := nth_valid r.valid (by omega) (by omega)
    have v1 : h.valid (nth ps index) := nth_valid r.valid (by omega) (by omega)
    have n0 : h.next (nth ps (index - 1)) = nth ps index := by
      have := r.next (index - 1) (by omega) (by omega)
      rw [sub_add_cancel] at this
      exact this
    have n1 : h.next (nth ps index) = 0 := by
      rw [r.next index (by omega) (by omega)]
      exact nth_of_ge ps (by omega)
    have hne : nth ps index ≠ nth ps (index - 1) := by
      rw [Ne, rep_nth_eq_left r (by omega) (by omega)]; omega
    simp only [rm, hg, hi0, if_false, hwalk, bind, Except.bind, load_next_ok v0, n0,
      load_next_ok v1, n1, store_next_ok _ v0]
    simp [Heap.load_next, Heap.store_prev, Heap.valid, v1.1, v1.2, upd, hne, n1]
  · -- a negative index on a list of at most two nodes
    have e0 : (index - 1).toNat = 0 := by omega
    by_cases h0 : ps.length = 0
    · have hh : lst.head = 0 := by rw [r.head]; exact nth_of_ge ps (by omega)
      simp only [rm, hg, hi0, if_false, e0, walk_next, hh, bind, Except.bind, load_next_null]
    · have vh : h.valid (nth ps 0) := nth_valid r.valid (le_refl _) (by omega)
      by_cases h1 : ps.length = 1
      · have n0 : h.next (nth ps 0) = 0 := by
          rw [r.next 0 (le_refl _) (by omega)]
          exact nth_of_ge ps (by omega)
        simp only [rm, hg, hi0, if_false, e0, walk_next, r.head, bind, Except.bind,
          load_next_ok vh, n0, load_next_null]
      · have h2 : ps.length = 2 := by omega
        have v1 : h.valid (nth ps 1) := nth_valid r.valid (by omega) (by omega)
        have n0 : h.next (nth ps 0) = nth ps 1 := r.next 0 (le_refl _) (by omega)
        have n1 : h.next (nth ps 1) = 0 := by
          rw [r.next 1 (by omega) (by omega)]
          exact nth_of_ge ps (by omega)
        have hne : nth ps 1 ≠ nth ps 0 := by
          rw [Ne, rep_nth_eq_left r (by omega) (by omega)]; omega
        simp only [rm, hg, hi0, if_false, e0, walk_next, r.head, bind, Except.bind,
          load_next_ok vh, n0, load_next_ok v1, n1, store_next_ok _ vh]
        simp [Heap.load_next, Heap.store_prev, Heap.valid, v1.1, v1.2, upd, hne, n1]

theorem bind_ne_oob {α β : Type} {x : Except Fault α} {f : α → Except Fault β}
    (hx : x ≠ .error .index_out_of_bounds) (hf : ∀ a, f a ≠ .error .index_out_of_bounds) :
    (x >>= f) ≠ .error .index_out_of_bounds := by
  cases x with
  | error e =>
    intro hb
    apply hx
    have he : e = .index_out_of_bounds := by simpa [bind, Except.bind] using hb
    rw [he]
  | ok a => exact hf a

theorem load_next_ne_oob (h : Heap) (p : Nat) :
    h.load_next p ≠ .error .index_out_of_bounds := by
  unfold Heap.load_next; split_ifs <;> simp

theorem load_data_ne_oob (h : Heap) (p : Nat) :
    h.load_data p ≠ .error .index_out_of_bounds := by
  unfold Heap.load_data; split_ifs <;> simp

theorem store_next_ne_oob (h : Heap) (p v : Nat) :
    h.store_next p v ≠ .error .index_out_of_bounds := by
  unfold Heap.store_next; split_ifs <;> simp

theorem store_prev_ne_oob (h : Heap) (p v : Nat) :
    h.store_prev p v ≠ .error .index_out_of_bounds := by
  unfold Heap.store_prev; split_ifs <;> simp

theorem walk_next_ne_oob (h : Heap) (k p : Nat) :
    walk_next h k p ≠ .error .index_out_of_bounds := by
  intro hw
  exact Fault.noConfusion (walk_next_error hw)

theorem pop_ne_oob (h : Heap) (lst : list) : pop h lst ≠ .error .index_out_of_bounds := by
  unfold pop
  split_ifs
  · simp
  · exact bind_ne_oob (load_next_ne_oob _ _) (fun _ =>
      bind_ne_oob (store_prev_ne_oob _ _ _) (fun _ =>
        bind_ne_oob (load_data_ne_oob _ _) (fun _ => by simp)))

/-- The index-out-of-bounds error of `rm` is raised exactly when
`length <= index`: a negative index is never rejected. -/
theorem rm_oob_iff (h : Heap) (lst : list) (index : Int) :
    rm h lst index = .error .index_out_of_bounds ↔ lst.length ≤ index := by
  constructor
  · intro hr
    by_contra hg
    revert hr
    unfold rm
    rw [if_neg hg]
    by_cases h0 : index = 0
    · rw [if_pos h0]
      exact pop_ne_oob h lst
    · rw [if_neg h0]
      exact bind_ne_oob (walk_next_ne_oob _ _ _) (fun _ =>
        bind_ne_oob (load_next_ne_oob _ _) (fun _ =>
          bind_ne_oob (load_next_ne_oob _ _) (fun _ =>
            bind_ne_oob (store_next_ne_oob _ _ _) (fun _ =>
              bind_ne_oob (load_next_ne_oob _ _) (fun _ =>
                bind_ne_oob (store_prev_ne_oob _ _ _) (fun _ =>
                  bind_ne_oob (load_data_ne_oob _ _) (fun _ => by simp)))))))
  · intro hg
    simp only [rm, hg, if_true]

theorem iget_counted_steps {h : Heap} {iter : list_iterator} {k : Int}
    {r : (list_iterator × Nat) × Nat} (hr : iget_counted h iter k = .ok r) :
    r.2 = (iget_plan iter k).2.2.toNat := by
  unfold iget_counted at hr
  by_cases hb : k ≥ iter.lst.length ∨ k < 0
  · simp only [hb, if_true] at hr
    exact Except.noConfusion hr
  · simp only [hb, if_false, bind, Except.bind] at hr
    cases hc : iget_steps_counted h (iget_plan iter k).2.1 (iget_plan iter k).2.2.toNat
        ((iget_plan iter k).1, 0) with
    | error e =>
      rw [hc] at hr
      exact Except.noConfusion hr
    | ok q =>
      rw [hc] at hr
      simp only [] at hr
      have hq := iget_steps_counted_count hc
      cases hd : data h q.1 with
      | error e =>
        rw [hd] at hr
        exact Except.noConfusion hr
      | ok d =>
        rw [hd] at hr
        simp only [Except.ok.injEq] at hr
        rw [← hr]
        simp only [] at hq ⊢
        omega

/-! ## The properties of the specification -/

/-- C1 (the code fails the claim): on memory that is not zero-filled, the list
built by appending `5, 3, 4, 1, 2` is not sorted by `bubble_sort`: the first
node keeps the `prev` field `malloc` left in it, and the first `_swap` of the
head stores through that pointer. -/
theorem bubble_sort_of_appended_faults :
    (appends junk_heap empty_list [5, 3, 4, 1, 2]).bind
      (fun s => bubble_sort s.1 (get_iterator s.2) (cmp_int int_store) extract_int)
      = .error .invalid_pointer := by
  rfl

/-- On zero-filled memory the same list is sorted: its data read `1, 2, 3, 4, 5`
from head to tail. -/
theorem bubble_sort_of_appended_zero_filled :
    ((appends zero_heap empty_list [5, 3, 4, 1, 2]).bind
      (fun s => bubble_sort s.1 (get_iterator s.2) (cmp_int int_store) extract_int)).map
      (fun s => elements s.1 s.2.lst) = .ok [1, 2, 3, 4, 5] := by
  rfl

/-- C2: on a well-formed list, for every iterator whose cached index is the
position of its current node and every valid index `k`, `iget(iter, k)` returns
the data `get(lst, k)` returns, and the list struct the iterator points to is
left as it was (`iget` has no access to the heap other than reading). -/
theorem iget_agrees_with_get (h : Heap) (iter : list_iterator) (k : Int)
    (w : well_formed h iter.lst) (hc : consistent h iter) (k0 : 0 ≤ k)
    (k1 : k < iter.lst.length) :
    ∃ iter2 d, iget h iter k = .ok (iter2, d) ∧ get h iter.lst k = .ok d ∧
      iter2.lst = iter.lst := by
  have r := rep_of_wf w
  obtain ⟨c0, c1, hi⟩ := (consistent_iff_iter_at r).mp hc
  have hl := r.len
  refine ⟨iter_at iter.lst (nodes h iter.lst) k, h.data (nth (nodes h iter.lst) k), ?_,
    r.fwd.get_eq k0 k1, rfl⟩
  rw [hi]
  exact rep_iget_at r c0 c1 k0 (by omega)

/-- The hypotheses of `iget_agrees_with_get` hold for the iterator `demo_iter` and `k = 0`. -/
theorem iget_agrees_with_get_witness :
    well_formed demo_heap demo_iter.lst ∧ consistent demo_heap demo_iter ∧
      ∃ iter2 d, iget demo_heap demo_iter 0 = .ok (iter2, d) ∧
        get demo_heap demo_iter.lst 0 = .ok d ∧ iter2.lst = demo_iter.lst :=
  ⟨by decide, by decide,
    iget_agrees_with_get demo_heap demo_iter 0 (by decide) (by decide) (by decide) (by decide)⟩

/-- C3: on a well-formed list `swap(lst, i, j)` at valid indices (in either order,
equal ones included) succeeds; the node sequence of the result is the old one
with the nodes at `i` and `j` exchanged, the data fields are untouched, so
`get` finds at `j` what was at `i`, at `i` what was at `j` and elsewhere what
was there; `length` is unchanged, the result is well formed with `head` and
`tail` the first and last node of the new sequence, and `swap(lst, j, i)` is
the same call. -/
theorem swap_exchanges (h : Heap) (lst : list) (i j : Int) (w : well_formed h lst)
    (i0 : 0 ≤ i) (i1 : i < lst.length) (j0 : 0 ≤ j) (j1 : j < lst.length) :
    ∃ h2 lst2, swap h lst i j = .ok (h2, lst2) ∧
      nodes h2 lst2 = exchange (nodes h lst) i j ∧
      h2.data = h.data ∧
      elements h2 lst2 = exchange (elements h lst) i j ∧
      get h2 lst2 j = get h lst i ∧ get h2 lst2 i = get h lst j ∧
      (∀ k : Int, k ≠ i → k ≠ j → get h2 lst2 k = get h lst k) ∧
      lst2.length = lst.length ∧
      well_formed h2 lst2 ∧
      lst2.head = nth (nodes h2 lst2) 0 ∧ lst2.tail = nth (nodes h2 lst2) (lst2.length - 1) ∧
      swap h lst j i = swap h lst i j := by
  have r := rep_of_wf w
  have hl := r.len
  have i1p : i < (nodes h lst).length := by omega
  have j1p : j < (nodes h lst).length := by omega
  obtain ⟨h2, lst2, e, r2, f⟩ := swap_rep_ok r i0 i1p j0 j1p
  have hl2 := r2.len
  rw [length_exchange] at hl2
  have hg : ∀ k : Int, get h2 lst2 k
      = get h lst (if k = j then i else if k = i then j else k) := by
    intro k
    by_cases hk : 0 ≤ k ∧ k < lst.length
    · rw [r2.fwd.get_eq hk.1 (by omega), r.fwd.get_eq (by split_ifs <;> omega)
        (by split_ifs <;> omega), f.1, nth_exchange _ i0 i1p j0 j1p]
    · have h1 : k ≥ lst2.length ∨ k < 0 := by omega
      have h2 : ¬ (k = j) := by omega
      have h3 : ¬ (k = i) := by omega
      have h4 : k ≥ lst.length ∨ k < 0 := by omega
      simp only [get, h1, h2, h3, h4, if_true, if_false]
  refine ⟨h2, lst2, e, r2.nodes_eq, f.1, ?_, ?_, ?_, ?_, by omega, r2.to_wf, ?_, ?_,
    swap_comm h lst i j⟩
  · unfold elements
    rw [r2.nodes_eq, f.1, exchange_map _ _ i0 i1p j0 j1p]
  · rw [hg, if_pos rfl]
  · rw [hg]
    by_cases hij : i = j
    · rw [if_pos hij, hij]
    · rw [if_neg hij, if_pos rfl]
  · intro k hki hkj
    rw [hg, if_neg hkj, if_neg hki]
  · rw [r2.nodes_eq]; exact r2.head
  · rw [r2.nodes_eq, r2.tail, hl2, length_exchange]

/-- The hypotheses of `swap_exchanges` hold for `demo_list` and the indices `0` and `4`. -/
theorem swap_exchanges_witness :
    well_formed demo_heap demo_list ∧
    ∃ h2 lst2, swap demo_heap demo_list 0 4 = .ok (h2, lst2) ∧
      nodes h2 lst2 = exchange (nodes demo_heap demo_list) 0 4 ∧
      h2.data = demo_heap.data ∧
      elements h2 lst2 = exchange (elements demo_heap demo_list) 0 4 ∧
      get h2 lst2 4 = get demo_heap demo_list 0 ∧ get h2 lst2 0 = get demo_heap demo_list 4 ∧
      (∀ k : Int, k ≠ 0 → k ≠ 4 → get h2 lst2 k = get demo_heap demo_list k) ∧
      lst2.length = demo_list.length ∧
      well_formed h2 lst2 ∧
      lst2.head = nth (nodes h2 lst2) 0 ∧ lst2.tail = nth (nodes h2 lst2) (lst2.length - 1) ∧
      swap demo_heap demo_list 4 0 = swap demo_heap demo_list 0 4 :=
  ⟨by decide,
    swap_exchanges demo_heap demo_list 0 4 (by decide) (by decide) (by decide) (by decide)
      (by decide)⟩

/-- C4: on a well-formed list, `swap(lst, i, j)` at valid indices applied twice
in succession gives back the heap and the list struct it started from: the same
nodes with the same links, the same head, tail and length. -/
theorem swap_twice_restores (h : Heap) (lst : list) (i j : Int) (w : well_formed h lst)
    (i0 : 0 ≤ i) (i1 : i < lst.length) (j0 : 0 ≤ j) (j1 : j < lst.length) :
    ∃ h2 lst2, swap h lst i j = .ok (h2, lst2) ∧ swap h2 lst2 i j = .ok (h, lst) := by
  have r := rep_of_wf w
  have hl := r.len
  have i1p : i < (nodes h lst).length := by omega
  have j1p : j < (nodes h lst).length := by omega
  obtain ⟨h2, lst2, e, r2, f⟩ := swap_rep_ok r i0 i1p j0 j1p
  have l := length_exchange (nodes h lst) i j
  obtain ⟨h3, lst3, e3, r3, f3⟩ := swap_rep_ok r2 i0 (by rw [l]; exact i1p) j0
    (by rw [l]; exact j1p)
  rw [exchange_exchange _ i0 i1p j0 j1p] at r3
  have := rep_unique r r3
    (Frame.trans f f3 (fun x hx => (mem_exchange _ i0 i1p j0 j1p x).mp hx))
  rw [this.1, this.2] at e3
  exact ⟨h2, lst2, e, e3⟩

/-- The hypotheses of `swap_twice_restores` hold for `demo_list` and the indices `0` and `1`. -/
theorem swap_twice_restores_witness :
    well_formed demo_heap demo_list ∧
    ∃ h2 lst2, swap demo_heap demo_list 0 1 = .ok (h2, lst2) ∧
      swap h2 lst2 0 1 = .ok (demo_heap, demo_list) :=
  ⟨by decide,
    swap_twice_restores demo_heap demo_list 0 1 (by decide) (by decide) (by decide) (by decide)
      (by decide)⟩

/-- C5: on a well-formed list of length `n` (0 and 1 included), `n` calls of
`cycle` in succession give back the heap and the list struct they started
from: the original order, head, tail and length. -/
theorem cycle_length_times (h : Heap) (lst : list) (w : well_formed h lst) :
    cycle_times lst.length.toNat (h, lst) = .ok (h, lst) := by
  by_cases hs : lst.length ≤ 1
  · exact cycle_times_small h lst hs _
  · have r := rep_of_wf w
    have hl := r.len
    obtain ⟨h2, lst2, e, r2, f⟩ := cycle_times_rep r (by omega) lst.length.toNat
    have hn : lst.length.toNat = (nodes h lst).length := by omega
    rw [hn, List.rotate_length] at r2
    have := rep_unique r r2 f
    rw [e, this.1, this.2]

/-- The hypothesis of `cycle_length_times` holds for `demo_list`. -/
theorem cycle_length_times_witness :
    well_formed demo_heap demo_list ∧
      cycle_times demo_list.length.toNat (demo_heap, demo_list) = .ok (demo_heap, demo_list) :=
  ⟨by decide, cycle_length_times demo_heap demo_list (by decide)⟩

/-- C6: on a well-formed list of more than one node `cycle` succeeds and turns
the elements `[x0, x1, ..., x(n-1)]` into `[x1, ..., x(n-1), x0]` (the nodes, and
with them the data); `length` is unchanged, the former second node is the head
and the former head is the tail, and the result is well formed.  On a list of
length at most 1 `cycle` changes nothing. -/
theorem cycle_rotates (h : Heap) (lst : list) (w : well_formed h lst) :
    (1 < lst.length →
      ∃ h2 lst2, cycle h lst = .ok (h2, lst2) ∧
        nodes h2 lst2 = (nodes h lst).drop 1 ++ (nodes h lst).take 1 ∧
        elements h2 lst2 = (elements h lst).drop 1 ++ (elements h lst).take 1 ∧
        lst2.length = lst.length ∧
        lst2.head = nth (nodes h lst) 1 ∧ lst2.tail = lst.head ∧
        well_formed h2 lst2) ∧
    (lst.length ≤ 1 → cycle h lst = .ok (h, lst)) := by
  refine ⟨fun hn => ?_, cycle_small h lst⟩
  have r := rep_of_wf w
  have hl := r.len
  have hn1 : 1 < (nodes h lst).length := by omega
  obtain ⟨h2, lst2, e, r2, f⟩ := cycle_rep r hn1
  have hrot : (nodes h lst).rotate 1 = (nodes h lst).drop 1 ++ (nodes h lst).take 1 :=
    List.rotate_eq_drop_append_take (by omega)
  have hl2 := r2.len
  rw [List.length_rotate] at hl2
  refine ⟨h2, lst2, e, by rw [r2.nodes_eq, hrot], ?_, by omega, ?_, ?_, r2.to_wf⟩
  · unfold elements
    rw [r2.nodes_eq, f.1, hrot, List.map_append, List.map_drop, List.map_take]
  · rw [r2.head, nth_rotate_one _ (le_refl _), if_neg (by omega)]; rfl
  · rw [r2.tail, List.length_rotate, nth_rotate_one _ (by omega), if_pos (by omega), r.head]

/-- The hypothesis of `cycle_rotates` holds for `demo_list`. -/
theorem cycle_rotates_witness :
    well_formed demo_heap demo_list ∧
    ((1 < demo_list.length →
      ∃ h2 lst2, cycle demo_heap demo_list = .ok (h2, lst2) ∧
        nodes h2 lst2 = (nodes demo_heap demo_list).drop 1 ++ (nodes demo_heap demo_list).take 1 ∧
        elements h2 lst2
          = (elements demo_heap demo_list).drop 1 ++ (elements demo_heap demo_list).take 1 ∧
        lst2.length = demo_list.length ∧
        lst2.head = nth (nodes demo_heap demo_list) 1 ∧ lst2.tail = demo_list.head ∧
        well_formed h2 lst2) ∧
    (demo_list.length ≤ 1 → cycle demo_heap demo_list = .ok (demo_heap, demo_list))) :=
  ⟨by decide, cycle_rotates demo_heap demo_list (by decide)⟩

/-- C7: `n` calls of `append` on a list of length 0, with the data
`d0, ..., d(n-1)`, all succeed, whatever the heap holds; the resulting list has
length `n` and `get(lst, i)` returns `d_i` for every `0 <= i < n`. -/
theorem appends_then_get (h : Heap) (lst : list) (ds : List Nat) (h0 : lst.length = 0) :
    ∃ h2 lst2, appends h lst ds = .ok (h2, lst2) ∧ lst2.length = ds.length ∧
      ∀ (i : Nat) (hi : i < ds.length), get h2 lst2 i = .ok ds[i] := by
  obtain ⟨h2, lst2, qs, e, r, hd, hl⟩ := appends_fwd (fwd_empty h h0) ds
  simp only [List.nil_append, List.map_nil] at r hd
  refine ⟨h2, lst2, e, by omega, ?_⟩
  intro i hi
  have hq : qs.length = ds.length := by rw [← hd, List.length_map]
  rw [r.get_eq (Int.natCast_nonneg i) (by omega)]
  have := map_getElem?_nth h2.data qs (k := (i : Int)) (Int.natCast_nonneg i) (by omega)
  rw [hd, Int.toNat_ofNat, List.getElem?_eq_getElem hi] at this
  rw [Option.some.inj this]

/-- The hypothesis of `appends_then_get` holds for `empty_list`, here on memory that is not zero-filled. -/
theorem appends_then_get_witness :
    empty_list.length = 0 ∧
    ∃ h2 lst2, appends junk_heap empty_list [5, 3, 4] = .ok (h2, lst2) ∧
      lst2.length = [5, 3, 4].length ∧
      ∀ (i : Nat) (hi : i < [5, 3, 4].length), get h2 lst2 i = .ok [5, 3, 4][i] :=
  ⟨rfl, appends_then_get junk_heap empty_list [5, 3, 4] rfl⟩

/-- C8: after at least two `append` calls on a list of length 0 (data `d0`, `d1`
and then `ds`), `pop` succeeds and returns `d0`, the first appended item;
`length` goes down by one; `get(lst, 0)` then returns `d1`, the second appended
item, and `get(lst, i)` returns the remaining items in the order they were
appended. -/
theorem pop_after_appends (h : Heap) (lst : list) (d0 d1 : Nat) (ds : List Nat)
    (h0 : lst.length = 0) :
    ∃ h2 lst2 h3 lst3, appends h lst (d0 :: d1 :: ds) = .ok (h2, lst2) ∧
      pop h2 lst2 = .ok (h3, lst3, d0) ∧
      lst3.length = lst2.length - 1 ∧
      get h3 lst3 0 = .ok d1 ∧
      ∀ (i : Nat) (hi : i < (d1 :: ds).length), get h3 lst3 i = .ok (d1 :: ds)[i] := by
  obtain ⟨h2, lst2, qs, e, r, hd, hl⟩ := appends_fwd (fwd_empty h h0) (d0 :: d1 :: ds)
  simp only [List.nil_append, List.map_nil] at r hd
  match qs, r, hd with
  | [], _, hd => simp at hd
  | [_], _, hd => simp at hd
  | p :: q :: ps, r, hd =>
    obtain ⟨h3, lst3, e3, r3, hdat, -, -, -, hl3, -, -⟩ := pop_fwd r
    simp only [List.map_cons, List.cons.injEq] at hd
    have hget : ∀ (i : Nat) (hi : i < (d1 :: ds).length),
        get h3 lst3 i = .ok (d1 :: ds)[i] := by
      intro i hi
      have hq : (q :: ps).length = (d1 :: ds).length := by
        have := congrArg List.length hd.2.2
        simp only [List.length_map] at this
        simp only [List.length_cons, this]
      have hl3b := r3.len
      rw [r3.get_eq (Int.natCast_nonneg i) (by omega)]
      have := map_getElem?_nth h3.data (q :: ps) (k := (i : Int)) (Int.natCast_nonneg i)
        (by omega)
      rw [hdat, List.map_cons, hd.2.1, hd.2.2, Int.toNat_ofNat,
        List.getElem?_eq_getElem hi] at this
      rw [hdat, Option.some.inj this]
    refine ⟨h2, lst2, h3, lst3, e, ?_, hl3, hget 0 (by simp), hget⟩
    rw [e3, hd.1]

/-- The hypothesis of `pop_after_appends` holds for `empty_list`, here on memory that is not zero-filled. -/
theorem pop_after_appends_witness :
    empty_list.length = 0 ∧
    ∃ h2 lst2 h3 lst3, appends junk_heap empty_list (5 :: 3 :: [4]) = .ok (h2, lst2) ∧
      pop h2 lst2 = .ok (h3, lst3, 5) ∧
      lst3.length = lst2.length - 1 ∧
      get h3 lst3 0 = .ok 3 ∧
      ∀ (i : Nat) (hi : i < (3 :: [4]).length), get h3 lst3 i = .ok (3 :: [4])[i] :=
  ⟨rfl, pop_after_appends junk_heap empty_list 5 3 [4] rfl⟩

/-- C9 (the code fails the claim): on zero-filled memory, `append` of one item to
an empty list followed by `pop` does not return the item: `pop` sets
`lst->head = popped->next`, which is `NULL`, and the next statement
`lst->head->prev = 0` dereferences it. -/
theorem pop_of_single_item_faults :
    (append zero_heap empty_list 1).bind (fun s => pop s.1 s.2) = .error .invalid_pointer := by
  rfl

/-- C10: on a well-formed list `get(lst, index)` fails with the
index-out-of-bounds error exactly when `index < 0` or `index >= length`;
for any other index it returns the data of the element at that position
counted from head.  `get` only reads the heap and the list struct. -/
theorem get_in_and_out_of_bounds (h : Heap) (lst : list) (index : Int)
    (w : well_formed h lst) :
    (get h lst index = .error .index_out_of_bounds ↔ index < 0 ∨ index ≥ lst.length) ∧
    (0 ≤ index → index < lst.length →
      ∃ d, get h lst index = .ok d ∧ (elements h lst)[index.toNat]? = some d) := by
  refine ⟨get_oob_iff h lst index, fun i0 i1 => ?_⟩
  have r := rep_of_wf w
  have hl := r.len
  exact ⟨_, r.fwd.get_eq i0 i1, map_getElem?_nth h.data _ i0 (by omega)⟩

/-- The hypothesis of `get_in_and_out_of_bounds` holds for `demo_list`, here with the index `5`. -/
theorem get_in_and_out_of_bounds_witness :
    well_formed demo_heap demo_list ∧
    (get demo_heap demo_list 5 = .error .index_out_of_bounds ↔
      (5 : Int) < 0 ∨ 5 ≥ demo_list.length) ∧
    ((0 : Int) ≤ 5 → 5 < demo_list.length →
      ∃ d, get demo_heap demo_list 5 = .ok d ∧
        (elements demo_heap demo_list)[(5 : Int).toNat]? = some d) :=
  ⟨by decide, get_in_and_out_of_bounds demo_heap demo_list 5 (by decide)⟩

/-- C11 (the code fails the claim): `rm` at the last index of the five-node list
does not remove the tail: `rm->next` is `NULL` there and `rm->next->prev = n`
dereferences it; and `rm` at index 0 of a list with a single appended item goes
through `pop`, which dereferences the `NULL` new head. -/
theorem rm_of_tail_faults :
    well_formed demo_heap demo_list ∧
    rm demo_heap demo_list (demo_list.length - 1) = .error .invalid_pointer ∧
    (append zero_heap empty_list 1).bind (fun s => rm s.1 s.2 0) = .error .invalid_pointer :=
  ⟨by decide, rfl, rfl⟩

/-- C12 (the code fails the claim): `rm` with the index `-1` on the five-node list
is not rejected: it unlinks the node at index 1 and returns its data, and the
list is left with four nodes. -/
theorem rm_of_negative_index_removes :
    well_formed demo_heap demo_list ∧
    get demo_heap demo_list (-1) = .error .index_out_of_bounds ∧
    (rm demo_heap demo_list (-1)).map (fun s => (s.2.2, s.2.1.length, nodes s.1 s.2.1))
      = .ok (20, 4, [1, 3, 4, 5]) :=
  ⟨by decide, rfl, rfl⟩

/-- C13: on a well-formed list, for an iterator whose index is the position of
its current node: the current node has no next node exactly at the last index
and no previous node exactly at index 0; there `next`, respectively `prev`,
succeeds, leaves the iterator as it is and returns its index; anywhere else
`next` (`prev`) succeeds, moves `current` to the node one position further
(back) and returns the index plus (minus) one. -/
theorem next_prev_at_boundaries (h : Heap) (iter : list_iterator)
    (w : well_formed h iter.lst) (hc : consistent h iter) :
    (h.next iter.current = 0 ↔ iter.index + 1 = iter.lst.length) ∧
    (h.prev iter.current = 0 ↔ iter.index = 0) ∧
    (iter.index + 1 = iter.lst.length → next h iter = .ok (iter, iter.index)) ∧
    (iter.index = 0 → prev h iter = .ok (iter, iter.index)) ∧
    (iter.index + 1 < iter.lst.length →
      next h iter = .ok ({ iter with current := nth (nodes h iter.lst) (iter.index + 1),
                                     index := iter.index + 1 }, iter.index + 1)) ∧
    (0 < iter.index →
      prev h iter = .ok ({ iter with current := nth (nodes h iter.lst) (iter.index - 1),
                                     index := iter.index - 1 }, iter.index - 1)) := by
  have r := rep_of_wf w
  obtain ⟨c0, c1, hi⟩ := (consistent_iff_iter_at r).mp hc
  have hl := r.len
  have hcur : iter.current = nth (nodes h iter.lst) iter.index := hc.2.2
  refine ⟨?_, ?_, ?_, ?_, ?_, ?_⟩
  · rw [hcur, r.next _ c0 c1, rep_nth_eq_zero r]; omega
  · rw [hcur, r.prev _ c0 c1, rep_nth_eq_zero r]; omega
  · intro ht
    have := rep_next_at_tail r c0 (by omega)
    rw [← hi] at this
    exact this
  · intro hh
    have := rep_prev_at_head r (by omega)
    rw [← hh, ← hi] at this
    exact this
  · intro hn
    have := rep_next_at r c0 (by omega)
    rw [← hi] at this
    exact this
  · intro hp
    have := rep_prev_at r hp c1
    rw [← hi] at this
    exact this

/-- The hypotheses of `next_prev_at_boundaries` hold for the iterator `demo_iter`. -/
theorem next_prev_at_boundaries_witness :
    well_formed demo_heap demo_iter.lst ∧ consistent demo_heap demo_iter ∧
    (demo_heap.next demo_iter.current = 0 ↔ demo_iter.index + 1 = demo_iter.lst.length) ∧
    (demo_heap.prev demo_iter.current = 0 ↔ demo_iter.index = 0) ∧
    (demo_iter.index + 1 = demo_iter.lst.length →
      next demo_heap demo_iter = .ok (demo_iter, demo_iter.index)) ∧
    (demo_iter.index = 0 → prev demo_heap demo_iter = .ok (demo_iter, demo_iter.index)) ∧
    (demo_iter.index + 1 < demo_iter.lst.length →
      next demo_heap demo_iter
        = .ok ({ demo_iter with
                  current := nth (nodes demo_heap demo_iter.lst) (demo_iter.index + 1),
                  index := demo_iter.index + 1 }, demo_iter.index + 1)) ∧
    (0 < demo_iter.index →
      prev demo_heap demo_iter
        = .ok ({ demo_iter with
                  current := nth (nodes demo_heap demo_iter.lst) (demo_iter.index - 1),
                  index := demo_iter.index - 1 }, demo_iter.index - 1)) :=
  ⟨by decide, by decide, next_prev_at_boundaries demo_heap demo_iter (by decide) (by decide)⟩

/-- C14 (the code fails the claim): on memory that is not zero-filled, the list
built by appending `5, 3, 4, 1, 2` has length 5 and the iterator `get_iterator`
makes for it stands consistently at index 0, yet `bubble_sort` does not leave
an iterator at index 0: it does not complete, the first `_swap` of the head
stores through the `prev` field that `append` never initialised. The list is
not well formed. -/
theorem bubble_sort_of_appended_loses_iterator :
    (appends junk_heap empty_list [5, 3, 4, 1, 2]).map
      (fun s => (s.2.length, (get_iterator s.2).index, decide (consistent s.1 (get_iterator s.2)),
        decide (well_formed s.1 s.2))) = .ok (5, 0, true, false) ∧
    (appends junk_heap empty_list [5, 3, 4, 1, 2]).bind
      (fun s => (bubble_sort s.1 (get_iterator s.2) (cmp_int int_store) extract_int).map
        (fun r => r.2.index)) = .error .invalid_pointer :=
  ⟨rfl, rfl⟩

/-- On a non-empty list that is well formed, from an iterator standing
consistently at index `k`, `bubble_sort` with any comparator and extractor
succeeds and leaves the iterator at index `k`, its current node being the node
at position `k` of the reordered list (which is well formed and has the same
nodes). -/
theorem bubble_sort_keeps_index (h : Heap) (iter : list_iterator)
    (cmp_func : Nat → Nat → Int) (data_func : Nat → Nat)
    (w : well_formed h iter.lst) (hc : consistent h iter) :
    ∃ h2 iter2, bubble_sort h iter cmp_func data_func = .ok (h2, iter2) ∧
      iter2.index = iter.index ∧
      iter2.current = nth (nodes h2 iter2.lst) iter.index ∧
      consistent h2 iter2 ∧ well_formed h2 iter2.lst ∧
      (nodes h2 iter2.lst).Perm (nodes h iter.lst) := by
  have r := rep_of_wf w
  obtain ⟨c0, c1, hi⟩ := (consistent_iff_iter_at r).mp hc
  obtain ⟨h2, lst2, e, r2, -⟩ := rep_bubble_sort cmp_func data_func r c0 c1
  have l2 := length_bpasses cmp_func (fun p => data_func (h.data p))
    ((nodes h iter.lst).length - 1) ((nodes h iter.lst).length - 1) (nodes h iter.lst)
  have hp := perm_bpasses cmp_func (fun p => data_func (h.data p))
    ((nodes h iter.lst).length - 1) ((nodes h iter.lst).length - 1) r.nodup (by omega)
  rw [← hi] at e
  refine ⟨h2, _, e, rfl, ?_, ?_, r2.to_wf, ?_⟩
  · simp only [iter_at, r2.nodes_eq]
  · rw [consistent_iff_iter_at r2]
    simp only [iter_at, l2]
    exact ⟨c0, c1, trivial⟩
  · simp only [iter_at, r2.nodes_eq]
    exact hp

/-- The hypotheses of `bubble_sort_keeps_index` hold for the iterator `demo_iter`. -/
theorem bubble_sort_keeps_index_witness :
    well_formed demo_heap demo_iter.lst ∧ consistent demo_heap demo_iter ∧
    ∃ h2 iter2, bubble_sort demo_heap demo_iter (cmp_int int_store) extract_int
        = .ok (h2, iter2) ∧
      iter2.index = demo_iter.index ∧
      iter2.current = nth (nodes h2 iter2.lst) demo_iter.index ∧
      consistent h2 iter2 ∧ well_formed h2 iter2.lst ∧
      (nodes h2 iter2.lst).Perm (nodes demo_heap demo_iter.lst) :=
  ⟨by decide, by decide,
    bubble_sort_keeps_index demo_heap demo_iter (cmp_int int_store) extract_int
      (by decide) (by decide)⟩

/-- C15: on a well-formed list of length `L`, from an iterator standing
consistently at index `c`, for every valid index `k`, `iget(iter, k)` makes
exactly `min(|c - k|, k, L - 1 - k)` single `next`/`prev` steps. -/
theorem iget_steps_minimal (h : Heap) (iter : list_iterator) (k : Int)
    (w : well_formed h iter.lst) (hc : consistent h iter) (k0 : 0 ≤ k)
    (k1 : k < iter.lst.length) :
    ∃ iter2 d steps, iget_counted h iter k = .ok ((iter2, d), steps) ∧
      iget h iter k = .ok (iter2, d) ∧
      (steps : Int) = min |iter.index - k| (min k (iter.lst.length - 1 - k)) := by
  have r := rep_of_wf w
  obtain ⟨c0, c1, hi⟩ := (consistent_iff_iter_at r).mp hc
  have hl := r.len
  have hg : iget h iter k = .ok (iter_at iter.lst (nodes h iter.lst) k,
      h.data (nth (nodes h iter.lst) k)) := by
    have := rep_iget_at r c0 c1 k0 (show k < (nodes h iter.lst).length by omega)
    rw [← hi] at this
    exact this
  have hf := iget_counted_fst h iter k
  rw [hg] at hf
  cases hcnt : iget_counted h iter k with
  | error e =>
    rw [hcnt] at hf
    exact Except.noConfusion hf
  | ok q =>
    rw [hcnt] at hf
    simp only [Except.map, Except.ok.injEq] at hf
    have hs := iget_counted_steps hcnt
    have hp := iget_plan_steps iter k c0 hc.2.1
    refine ⟨_, _, q.2, ?_, hg, ?_⟩
    · rw [← hf]
    · rw [hs, ← hp]
      have : 0 ≤ (iget_plan iter k).2.2 := by
        rw [hp, ← Int.natCast_natAbs]; omega
      omega

/-- The hypotheses of `iget_steps_minimal` hold for the iterator `demo_iter` and
`k = 1`. -/
theorem iget_steps_minimal_witness :
    well_formed demo_heap demo_iter.lst ∧ consistent demo_heap demo_iter ∧
    ∃ iter2 d steps, iget_counted demo_heap demo_iter 1 = .ok ((iter2, d), steps) ∧
      iget demo_heap demo_iter 1 = .ok (iter2, d) ∧
      (steps : Int) = min |demo_iter.index - 1| (min 1 (demo_iter.lst.length - 1 - 1)) :=
  ⟨by decide, by decide,
    iget_steps_minimal demo_heap demo_iter 1 (by decide) (by decide) (by decide) (by decide)⟩

/-- C16 (the claim fails on the code): in the inner step at `j = 0` on the list
with data `10, 20, 30, 40, 50` the comparator reports `0` (less), which is not
the code `2` of equal, and the two nodes are left in place. -/
theorem bubble_step_less_no_swap :
    cmp_int int_store (extract_int (demo_heap.data 1)) (extract_int (demo_heap.data 2)) = 0 ∧
    cmp_int int_store (extract_int (demo_heap.data 1)) (extract_int (demo_heap.data 2)) ≠ 2 ∧
    nodes demo_heap demo_list = [1, 2, 3, 4, 5] ∧
    (bubble_step (cmp_int int_store) extract_int 0 (demo_heap, get_iterator demo_list)).map
      (fun s => nodes s.1 s.2.lst) = .ok [1, 2, 3, 4, 5] ∧
    exchange [1, 2, 3, 4, 5] 0 1 ≠ [1, 2, 3, 4, 5] :=
  ⟨by decide, by decide, by decide, rfl, by decide⟩

/-- C16, amended: in an inner step of `bubble_sort` at position `j` of a
well-formed list (`0 <= j`, `j + 1 < length`), from a consistent iterator, the
step succeeds; when the comparator's result on the keys extracted from the
nodes at `j` and `j + 1` is `1` (greater) the two nodes are exchanged, and when
it is `0` (less) nodes and heap are left as they are. -/
theorem bubble_step_greater_swaps_less_stays (h : Heap) (iter : list_iterator)
    (cmp_func : Nat → Nat → Int) (data_func : Nat → Nat) (j : Int)
    (w : well_formed h iter.lst) (hc : consistent h iter) (j0 : 0 ≤ j)
    (j1 : j + 1 < iter.lst.length) :
    ∃ h2 iter2, bubble_step cmp_func data_func j (h, iter) = .ok (h2, iter2) ∧
      (cmp_func (data_func (h.data (nth (nodes h iter.lst) j)))
          (data_func (h.data (nth (nodes h iter.lst) (j + 1)))) = 1 →
        nodes h2 iter2.lst = exchange (nodes h iter.lst) j (j + 1)) ∧
      (cmp_func (data_func (h.data (nth (nodes h iter.lst) j)))
          (data_func (h.data (nth (nodes h iter.lst) (j + 1)))) = 0 →
        nodes h2 iter2.lst = nodes h iter.lst ∧ h2 = h) := by
  have r := rep_of_wf w
  obtain ⟨c0, c1, hi⟩ := (consistent_iff_iter_at r).mp hc
  have hl := r.len
  have j1p : j + 1 < (nodes h iter.lst).length := by omega
  obtain ⟨h2, lst2, c2, e, r2, -, -, -⟩ := rep_bubble_step r cmp_func data_func c0 c1 j0 j1p
  rw [← hi] at e
  refine ⟨h2, _, e, ?_, ?_⟩
  · intro h1
    simp only [iter_at, r2.nodes_eq, bstep, h1, ne_eq, one_ne_zero, not_false_eq_true, if_true]
  · intro hz
    have e0 := rep_bubble_step_zero r cmp_func data_func c0 c1 j0 j1p hz
    rw [← hi, e] at e0
    simp only [Except.ok.injEq, Prod.mk.injEq] at e0
    refine ⟨?_, e0.1⟩
    simp only [iter_at, r2.nodes_eq, bstep, hz, ne_eq, not_true_eq_false, if_false]

/-- The hypotheses of `bubble_step_greater_swaps_less_stays` hold for the
iterator `demo_iter` and `j = 0`. -/
theorem bubble_step_greater_swaps_less_stays_witness :
    well_formed demo_heap demo_iter.lst ∧ consistent demo_heap demo_iter ∧
    ∃ h2 iter2, bubble_step (cmp_int int_store) extract_int 0 (demo_heap, demo_iter)
        = .ok (h2, iter2) ∧
      (cmp_int int_store (extract_int (demo_heap.data (nth (nodes demo_heap demo_iter.lst) 0)))
          (extract_int (demo_heap.data (nth (nodes demo_heap demo_iter.lst) (0 + 1)))) = 1 →
        nodes h2 iter2.lst = exchange (nodes demo_heap demo_iter.lst) 0 (0 + 1)) ∧
      (cmp_int int_store (extract_int (demo_heap.data (nth (nodes demo_heap demo_iter.lst) 0)))
          (extract_int (demo_heap.data (nth (nodes demo_heap demo_iter.lst) (0 + 1)))) = 0 →
        nodes h2 iter2.lst = nodes demo_heap demo_iter.lst ∧ h2 = demo_heap) :=
  ⟨by decide, by decide,
    bubble_step_greater_swaps_less_stays demo_heap demo_iter (cmp_int int_store) extract_int 0
      (by decide) (by decide) (by decide) (by decide)⟩

/-- C17 (the code fails the claim): on memory that is not zero-filled, the list
reached from the empty list by one `append` is not well formed: its only node
keeps the `prev` and `next` fields `malloc` left in it, so the head has a
previous and the tail a next pointer. -/
theorem appended_list_not_well_formed :
    well_formed junk_heap empty_list ∧
    (append junk_heap empty_list 1).map
      (fun s => (decide (well_formed s.1 s.2), s.1.prev s.2.head, s.1.next s.2.tail))
      = .ok (false, 7, 9) :=
  ⟨by decide, rfl⟩

/-- C18 (the code fails the claim): on memory that is not zero-filled, `iappend`
on the empty list leaves an iterator of index 0 whose current node is the new
sole node, which is consistent; from it `next` moves to the address the
uninitialised `next` field holds and returns index 1, and `prev` moves to the
address the uninitialised `prev` field holds and returns index -1: after either
call the index is not a position of the one-node list. The same happens from
`get_iterator` after one `append`. -/
theorem cursor_inconsistent_after_first_append :
    (iappend junk_heap (get_iterator empty_list) 1).map
      (fun s => (s.2.lst.length, s.2.index, s.2.current, s.2.lst.head,
        decide (consistent s.1 s.2))) = .ok (1, 0, 1, 1, true) ∧
    (iappend junk_heap (get_iterator empty_list) 1).bind
      (fun s => (next s.1 s.2).map
        (fun r => (r.2, r.1.index, r.1.current, decide (consistent s.1 r.1))))
      = .ok (1, 1, 9, false) ∧
    (iappend junk_heap (get_iterator empty_list) 1).bind
      (fun s => (prev s.1 s.2).map
        (fun r => (r.2, r.1.index, r.1.current, decide (consistent s.1 r.1))))
      = .ok (-1, -1, 7, false) ∧
    (append junk_heap empty_list 1).bind
      (fun s => (next s.1 (get_iterator s.2)).map
        (fun r => (decide (consistent s.1 (get_iterator s.2)), r.1.index, r.1.current,
          decide (consistent s.1 r.1))))
      = .ok (true, 1, 9, false) :=
  ⟨rfl, rfl, rfl, rfl⟩

/-- On a list that is well formed, `get_iterator` yields an iterator at the head
with index 0, which is consistent; from an iterator whose index is the position
of its current node, `next`, `prev`, `iget` with a valid index, `iappend` and
`bubble_sort` all succeed and leave an iterator whose index is again the
position of its current node; and `iappend` through an iterator `iter0` over a
list of length 0 makes the new, sole node (position 0) the current node, the
index staying what it was, 0 for an iterator made by `get_iterator`. -/
theorem cursor_consistency (h : Heap) (iter iter0 : list_iterator) (k : Int) (d : Nat)
    (cmp_func : Nat → Nat → Int) (data_func : Nat → Nat)
    (w : well_formed h iter.lst) (hc : consistent h iter) (k0 : 0 ≤ k)
    (k1 : k < iter.lst.length) (h0 : iter0.lst.length = 0) :
    (consistent h (get_iterator iter.lst) ∧ (get_iterator iter.lst).current = iter.lst.head ∧
      (get_iterator iter.lst).index = 0) ∧
    (∃ r, next h iter = .ok r ∧ consistent h r.1) ∧
    (∃ r, prev h iter = .ok r ∧ consistent h r.1) ∧
    (∃ r, iget h iter k = .ok r ∧ consistent h r.1) ∧
    (∃ h2 iter2, iappend h iter d = .ok (h2, iter2) ∧ consistent h2 iter2) ∧
    (∃ h2 iter2, bubble_sort h iter cmp_func data_func = .ok (h2, iter2) ∧
      consistent h2 iter2) ∧
    (∃ h2 iter2, iappend h iter0 d = .ok (h2, iter2) ∧ iter2.lst.length = 1 ∧
      nodes h2 iter2.lst = [iter2.current] ∧ iter2.current = iter2.lst.head ∧
      iter2.index = iter0.index ∧ (iter0.index = 0 → consistent h2 iter2)) := by
  have r := rep_of_wf w
  obtain ⟨c0, c1, hi⟩ := (consistent_iff_iter_at r).mp hc
  have hl := r.len
  have k1p : k < (nodes h iter.lst).length := by omega
  refine ⟨⟨?_, rfl, rfl⟩, ?_, ?_, ?_, ?_, ?_, ?_⟩
  · exact ⟨le_refl _, by simp only [get_iterator]; omega, r.head⟩
  · by_cases hn : iter.index + 1 < (nodes h iter.lst).length
    · refine ⟨_, by rw [hi]; exact rep_next_at r c0 hn, ?_⟩
      exact consistent_iter_at rfl hl (by omega) hn
    · refine ⟨_, by rw [hi]; exact rep_next_at_tail r c0 (by omega), ?_⟩
      exact consistent_iter_at rfl hl c0 c1
  · by_cases hp : 0 < iter.index
    · refine ⟨_, by rw [hi]; exact rep_prev_at r hp c1, ?_⟩
      exact consistent_iter_at rfl hl (by omega) (by omega)
    · have hz : iter.index = 0 := by omega
      refine ⟨_, by rw [hi, hz]; exact rep_prev_at_head r (by omega), ?_⟩
      exact consistent_iter_at rfl hl (le_refl _) (by omega)
  · refine ⟨_, by rw [hi]; exact rep_iget_at r c0 c1 k0 k1p, ?_⟩
    exact consistent_iter_at rfl hl k0 k1p
  · obtain ⟨h2, lst2, e, r2⟩ := iappend_fwd r.fwd d c0 c1
    refine ⟨h2, _, by rw [hi]; exact e, ?_⟩
    exact consistent_iter_at (fwd_nodes_eq r2) r2.len c0
      (by simp only [List.length_append, List.length_singleton, Nat.cast_add, Nat.cast_one]
          omega)
  · obtain ⟨h2, lst2, e, r2, -⟩ := rep_bubble_sort cmp_func data_func r c0 c1
    have l2 := length_bpasses cmp_func (fun p => data_func (h.data p))
      ((nodes h iter.lst).length - 1) ((nodes h iter.lst).length - 1) (nodes h iter.lst)
    refine ⟨h2, _, by rw [hi]; exact e, ?_⟩
    exact consistent_iter_at r2.nodes_eq r2.len c0 (by rw [l2]; exact c1)
  · obtain ⟨h2, lst2, e, r2, hh, h1⟩ := iappend_empty h iter0 d h0
    refine ⟨h2, _, e, h1, ?_, hh.symm, rfl, ?_⟩
    · simp only [fwd_nodes_eq r2]
    · intro hz
      unfold consistent
      simp only [fwd_nodes_eq r2, hz, h1, nth_cons_zero]
      exact ⟨le_refl _, by omega, trivial⟩

/-- The hypotheses of `cursor_consistency` hold for the iterator `demo_iter`, the
index `0` and the iterator `get_iterator` makes for `empty_list`. -/
theorem cursor_consistency_witness :
    well_formed demo_heap demo_iter.lst ∧ consistent demo_heap demo_iter ∧
    (get_iterator empty_list).lst.length = 0 ∧
    ((consistent demo_heap (get_iterator demo_iter.lst) ∧
      (get_iterator demo_iter.lst).current = demo_iter.lst.head ∧
      (get_iterator demo_iter.lst).index = 0) ∧
    (∃ r, next demo_heap demo_iter = .ok r ∧ consistent demo_heap r.1) ∧
    (∃ r, prev demo_heap demo_iter = .ok r ∧ consistent demo_heap r.1) ∧
    (∃ r, iget demo_heap demo_iter 0 = .ok r ∧ consistent demo_heap r.1) ∧
    (∃ h2 iter2, iappend demo_heap demo_iter 60 = .ok (h2, iter2) ∧ consistent h2 iter2) ∧
    (∃ h2 iter2, bubble_sort demo_heap demo_iter (cmp_int int_store) extract_int
        = .ok (h2, iter2) ∧ consistent h2 iter2) ∧
    (∃ h2 iter2, iappend demo_heap (get_iterator empty_list) 60 = .ok (h2, iter2) ∧
      iter2.lst.length = 1 ∧ nodes h2 iter2.lst = [iter2.current] ∧
      iter2.current = iter2.lst.head ∧ iter2.index = (get_iterator empty_list).index ∧
      ((get_iterator empty_list).index = 0 → consistent h2 iter2))) :=
  ⟨by decide, by decide, rfl,
    cursor_consistency demo_heap demo_iter (get_iterator empty_list) 0 60 (cmp_int int_store)
      extract_int (by decide) (by decide) (by decide) (by decide) rfl⟩

/-- C19: on a well-formed list, from a consistent iterator, the loops of
`bubble_sort` run without a fault for any comparator and extractor and execute
`(length - 1) * (length - 1)` inner steps (none when `length` is 1); at each of
them the counter `j` satisfies `0 <= j <= length - 2`, the seek has put the
iterator on index `j`, and the pointer `iter->current->next` whose data is read
and which is passed to `_swap` is not `NULL` but a node of the list; the final
`iget` succeeds too. -/
theorem bubble_sort_reads_inside (h : Heap) (iter : list_iterator)
    (cmp_func : Nat → Nat → Int) (data_func : Nat → Nat)
    (w : well_formed h iter.lst) (hc : consistent h iter) :
    ∃ s log, bubble_loops_logged h iter cmp_func data_func = .ok (s, log) ∧
      bubble_loops h iter cmp_func data_func = .ok s ∧
      (∃ iter2, bubble_sort h iter cmp_func data_func = .ok (s.1, iter2)) ∧
      log.length = (iter.lst.length - 1).toNat * (iter.lst.length - 1).toNat ∧
      (iter.lst.length = 1 → log = []) ∧
      ∀ p ∈ log, 0 ≤ p.j ∧ p.j ≤ iter.lst.length - 2 ∧ p.index = p.j ∧
        p.current ∈ nodes h iter.lst ∧ p.next ≠ 0 ∧ p.next ∈ nodes h iter.lst := by
  have r := rep_of_wf w
  obtain ⟨c0, c1, hi⟩ := (consistent_iff_iter_at r).mp hc
  have hl := r.len
  have hn : (iter.lst.length - 1).toNat = (nodes h iter.lst).length - 1 := by omega
  obtain ⟨h2, lst2, c2, new, e, r2, f, d0, d1, hlen, hin⟩ :=
    rep_bubble_passes_logged cmp_func data_func ((nodes h iter.lst).length - 1)
      ((nodes h iter.lst).length - 1) r c0 c1 (by omega) 0 []
  rw [← hi, List.nil_append] at e
  have e1 : bubble_loops_logged h iter cmp_func data_func = .ok
      ((h2, iter_at lst2 (bpasses cmp_func (fun p => data_func (h.data p))
        ((nodes h iter.lst).length - 1) ((nodes h iter.lst).length - 1) (nodes h iter.lst)) c2),
        new) := by
    unfold bubble_loops_logged
    rw [hn]; exact e
  have e2 := bubble_loops_logged_fst h iter cmp_func data_func
  rw [e1] at e2
  simp only [Except.map] at e2
  have l2 := length_bpasses cmp_func (fun p => data_func (h.data p))
    ((nodes h iter.lst).length - 1) ((nodes h iter.lst).length - 1) (nodes h iter.lst)
  have hig := rep_iget_at r2 d0 (by rw [l2]; exact d1) c0 (by rw [l2]; exact c1)
  refine ⟨_, new, e1, e2.symm, ?_, by rw [hn]; exact hlen, ?_, ?_⟩
  · refine ⟨iter_at lst2 (bpasses cmp_func (fun p => data_func (h.data p))
        ((nodes h iter.lst).length - 1) ((nodes h iter.lst).length - 1) (nodes h iter.lst))
        iter.index, ?_⟩
    rw [bubble_sort_eq_loops, ← e2]
    simp only [Except.bind, hig, Except.map]
  · intro h1
    have : new.length = 0 := by
      rw [hlen]
      have : (nodes h iter.lst).length - 1 = 0 := by omega
      rw [this]
    exact List.length_eq_zero.mp this
  · intro p hp
    obtain ⟨p0, p1, p2, p3, p4⟩ := hin p hp
    refine ⟨p0, by omega, p2, p3, ?_, p4⟩
    exact Nat.pos_iff_ne_zero.mp (r.valid _ p4).1

/-- The hypotheses of `bubble_sort_reads_inside` hold for the iterator `demo_iter`. -/
theorem bubble_sort_reads_inside_witness :
    well_formed demo_heap demo_iter.lst ∧ consistent demo_heap demo_iter ∧
    ∃ s log, bubble_loops_logged demo_heap demo_iter (cmp_int int_store) extract_int
        = .ok (s, log) ∧
      bubble_loops demo_heap demo_iter (cmp_int int_store) extract_int = .ok s ∧
      (∃ iter2, bubble_sort demo_heap demo_iter (cmp_int int_store) extract_int
        = .ok (s.1, iter2)) ∧
      log.length = (demo_iter.lst.length - 1).toNat * (demo_iter.lst.length - 1).toNat ∧
      (demo_iter.lst.length = 1 → log = []) ∧
      ∀ p ∈ log, 0 ≤ p.j ∧ p.j ≤ demo_iter.lst.length - 2 ∧ p.index = p.j ∧
        p.current ∈ nodes demo_heap demo_iter.lst ∧ p.next ≠ 0 ∧
        p.next ∈ nodes demo_heap demo_iter.lst :=
  ⟨by decide, by decide,
    bubble_sort_reads_inside demo_heap demo_iter (cmp_int int_store) extract_int
      (by decide) (by decide)⟩

/-- C20: for an iterator over a list of length 0, whatever its index and for any
comparator and extractor, the loops of `bubble_sort` execute no inner step and
leave heap and iterator as they are, every `iget` on the iterator fails with
the index-out-of-bounds error, and so does `bubble_sort` in its final call of
`iget`. -/
theorem bubble_sort_on_empty_list (h : Heap) (iter : list_iterator)
    (cmp_func : Nat → Nat → Int) (data_func : Nat → Nat) (h0 : iter.lst.length = 0) :
    bubble_loops_logged h iter cmp_func data_func = .ok ((h, iter), []) ∧
    bubble_loops h iter cmp_func data_func = .ok (h, iter) ∧
    (∀ index : Int, iget h iter index = .error .index_out_of_bounds) ∧
    bubble_sort h iter cmp_func data_func = .error .index_out_of_bounds := by
  have hn : (iter.lst.length - 1).toNat = 0 := by omega
  have hig : ∀ index : Int, iget h iter index = .error .index_out_of_bounds := by
    intro index
    have : index ≥ iter.lst.length ∨ index < 0 := by omega
    simp only [iget, this, if_true]
  have hl : bubble_loops h iter cmp_func data_func = .ok (h, iter) := by
    simp only [bubble_loops, hn, for_loop]
  refine ⟨?_, hl, hig, ?_⟩
  · simp only [bubble_loops_logged, hn, for_loop]
  · rw [bubble_sort_eq_loops, hl]
    simp only [Except.bind, hig, Except.map]

/-- The hypothesis of `bubble_sort_on_empty_list` holds for the iterator
`get_iterator` makes for `empty_list`. -/
theorem bubble_sort_on_empty_list_witness :
    (get_iterator empty_list).lst.length = 0 ∧
    bubble_loops_logged zero_heap (get_iterator empty_list) (cmp_int int_store) extract_int
      = .ok ((zero_heap, get_iterator empty_list), []) ∧
    bubble_loops zero_heap (get_iterator empty_list) (cmp_int int_store) extract_int
      = .ok (zero_heap, get_iterator empty_list) ∧
    (∀ index : Int, iget zero_heap (get_iterator empty_list) index
      = .error .index_out_of_bounds) ∧
    bubble_sort zero_heap (get_iterator empty_list) (cmp_int int_store) extract_int
      = .error .index_out_of_bounds :=
  ⟨rfl, bubble_sort_on_empty_list zero_heap (get_iterator empty_list) (cmp_int int_store)
    extract_int rfl⟩

end CList
